import Mathlib

/-!
Verification of the temporal layout engine of the bases-views plugin
(Gantt / calendar views over date-tagged records).

Shallow embedding conventions:

* Gantt dates are modelled as integer day numbers (midnight-aligned local
  days); `date-fns` operations such as `differenceInDays` and `addDays`
  become integer arithmetic on day numbers.  Calendar-month arithmetic
  (`addMonths`, `differenceInMonths`) is implemented on the civil calendar
  via day-number/civil-triple conversions.
* Calendar (month/week view) dates carry a day number plus a
  millisecond-of-day component, so that timestamp comparisons
  (`isBefore`, `getTime`) and day-level comparisons (`isSameDay`,
  `startOfDay`) are both expressible.
* JavaScript `Array.prototype.sort` (guaranteed stable) with comparator
  `cmp` is modelled by `List.insertionSort` with the relation
  `fun a b => cmp a b ≤ 0`; for consistent comparators this is exactly the
  unique stable sort.
* JavaScript numbers that take part in layout arithmetic are modelled as
  rationals; `Math.round` is `fun q => ⌊q + 1/2⌋` (round half toward +∞),
  which is exact JS behaviour.
-/

namespace BasesViews

/-- JavaScript `Math.round`: rounds half toward positive infinity. -/
def jsRound (q : ℚ) : ℤ := ⌊q + 1/2⌋

namespace DateFns

/-- date-fns `differenceInDays` on midnight-aligned dates: the signed number
of calendar days from `b` to `a`. -/
def differenceInDays (a b : ℤ) : ℤ := a - b

/-- date-fns `addDays`. -/
def addDays (d n : ℤ) : ℤ := d + n

/-- date-fns `addWeeks`. -/
def addWeeks (d n : ℤ) : ℤ := d + 7 * n

/-- date-fns `differenceInWeeks` with the default `trunc` rounding:
whole weeks between the dates, truncated toward zero. -/
def differenceInWeeks (a b : ℤ) : ℤ := (differenceInDays a b).tdiv 7

/-- Gregorian leap-year test. -/
def isLeapYear (y : ℤ) : Bool := (y % 4 = 0 ∧ y % 100 ≠ 0) ∨ y % 400 = 0

/-- Number of days in month `m` (1..12) of year `y`. -/
def daysInMonth (y m : ℤ) : ℤ :=
  if m = 2 then (if isLeapYear y then 29 else 28)
  else if m = 4 ∨ m = 6 ∨ m = 9 ∨ m = 11 then 30
  else 31

/-- Civil date (year, month 1..12, day 1..) to day number (days since
1970-01-01), by the standard Gregorian conversion.  The formula is linear
in `d`, so out-of-range day components roll over exactly as JavaScript
`Date` normalisation does. -/
def civilToDays (y m d : ℤ) : ℤ :=
  let y' : ℤ := if m ≤ 2 then y - 1 else y
  let era : ℤ := (if 0 ≤ y' then y' else y' - 399).fdiv 400
  let yoe : ℤ := y' - era * 400
  let mp : ℤ := if m > 2 then m - 3 else m + 9
  let doy : ℤ := (153 * mp + 2).fdiv 5 + d - 1
  let doe : ℤ := yoe * 365 + yoe.fdiv 4 - yoe.fdiv 100 + doy
  era * 146097 + doe - 719468

/-- Day number back to a civil (year, month, day) triple. -/
def daysToCivil (z : ℤ) : ℤ × ℤ × ℤ :=
  let z' : ℤ := z + 719468
  let era : ℤ := z'.fdiv 146097
  let doe : ℤ := z' - era * 146097
  let yoe : ℤ := (doe - doe.fdiv 1460 + doe.fdiv 36524 - doe.fdiv 146096).fdiv 365
  let y : ℤ := yoe + era * 400
  let doy : ℤ := doe - (365 * yoe + yoe.fdiv 4 - yoe.fdiv 100)
  let mp : ℤ := (5 * doy + 2).fdiv 153
  let d : ℤ := doy - (153 * mp + 2).fdiv 5 + 1
  let m : ℤ := if mp < 10 then mp + 3 else mp - 9
  (if m ≤ 2 then y + 1 else y, m, d)

/-- JavaScript `setMonth` / `setDate` combined: rebuild a date from a civil
triple whose month and day components may be out of range, normalising by
rollover (year carry for months, day overflow into following months). -/
def mkDateRolling (y m d : ℤ) : ℤ :=
  let t : ℤ := y * 12 + (m - 1)
  civilToDays (t.fdiv 12) (t.fmod 12 + 1) d

/-- date-fns `addMonths`: add `n` calendar months, clamping the day of
month to the length of the target month. -/
def addMonths (x n : ℤ) : ℤ :=
  let c := daysToCivil x
  let y := c.1
  let m := c.2.1
  let d := c.2.2
  let t : ℤ := y * 12 + (m - 1) + n
  let y' : ℤ := t.fdiv 12
  let m' : ℤ := t.fmod 12 + 1
  civilToDays y' m' (min d (daysInMonth y' m'))

/-- date-fns `differenceInCalendarMonths`. -/
def differenceInCalendarMonths (a b : ℤ) : ℤ :=
  let ca := daysToCivil a
  let cb := daysToCivil b
  (ca.1 - cb.1) * 12 + (ca.2.1 - cb.2.1)

/-- date-fns `compareAsc` on midnight-aligned dates: the sign of the
difference. -/
def compareAsc (a b : ℤ) : ℤ := if a < b then -1 else if a = b then 0 else 1

/-- date-fns `isLastDayOfMonth`. -/
def isLastDayOfMonth (x : ℤ) : Bool :=
  let c := daysToCivil x
  c.2.2 = daysInMonth c.1 c.2.1

/-- date-fns `differenceInMonths`: the number of full months between two
dates, translated operation by operation (including the end-of-February
adjustment and the last-day-of-month special case). -/
def differenceInMonths (a b : ℤ) : ℤ :=
  let sign := compareAsc a b
  let difference := |differenceInCalendarMonths a b|
  if difference < 1 then 0
  else
    let ca := daysToCivil a
    let a1 : ℤ :=
      if ca.2.1 = 2 ∧ ca.2.2 > 27 then mkDateRolling ca.1 ca.2.1 30 else a
    let ca1 := daysToCivil a1
    let a2 : ℤ := mkDateRolling ca1.1 (ca1.2.1 - sign * difference) ca1.2.2
    let isLastMonthNotFull : Bool :=
      if isLastDayOfMonth a ∧ difference = 1 ∧ compareAsc a b = 1 then false
      else compareAsc a2 b = -sign
    sign * (difference - (if isLastMonthNotFull then 1 else 0))

end DateFns

namespace DateCalc

/-- Timeline granularity (`GanttTimelineStep` in `view-config.ts`). -/
inductive Step where
  | day : Step
  | week : Step
  | month : Step
deriving DecidableEq, Repr

/-- Result of `calculateTaskPosition`: CSS percentage offsets. -/
structure Position where
  left : ℚ
  width : ℚ
deriving DecidableEq, Repr

/-- `calculateTaskPosition` from `gantt/utils/dateCalculations.ts`: position
and width of a task bar as percentages of the timeline, with the timeline
span and the task span both counted end-inclusive (the `+ 1`). -/
def calculateTaskPosition (taskStart taskEnd timelineStart timelineEnd : ℤ) :
    Position :=
  let timelineSpan : ℚ := ((DateFns.differenceInDays timelineEnd timelineStart + 1 : ℤ) : ℚ)
  let taskStartOffset : ℚ := ((DateFns.differenceInDays taskStart timelineStart : ℤ) : ℚ)
  let taskSpan : ℚ := ((DateFns.differenceInDays taskEnd taskStart + 1 : ℤ) : ℚ)
  { left := taskStartOffset / timelineSpan * 100
    width := taskSpan / timelineSpan * 100 }

/-- `getTimelineUnitCount` from `gantt/utils/dateCalculations.ts`: inclusive
number of timeline units between two dates. -/
def getTimelineUnitCount (timelineStart timelineEnd : ℤ) (step : Step) : ℤ :=
  match step with
  | .week => DateFns.differenceInWeeks timelineEnd timelineStart + 1
  | .month => DateFns.differenceInMonths timelineEnd timelineStart + 1
  | .day => DateFns.differenceInDays timelineEnd timelineStart + 1

/-- `calculateDateFromDelta` from `gantt/utils/dateCalculations.ts`: convert
a pixel delta to a whole number of units (rounded) and add them to the
original date. -/
def calculateDateFromDelta (originalDate : ℤ) (pixelDelta pixelsPerUnit : ℚ)
    (step : Step) : ℤ :=
  let unitsDelta : ℤ := jsRound (pixelDelta / pixelsPerUnit)
  match step with
  | .week => DateFns.addWeeks originalDate unitsDelta
  | .month => DateFns.addMonths originalDate unitsDelta
  | .day => DateFns.addDays originalDate unitsDelta

end DateCalc

/-- Gantt `Task` from `view-config.ts` (dates as integer day numbers; the
`file` back-reference is outside the layout model). -/
structure Task where
  id : String
  title : String
  startDate : ℤ
  endDate : ℤ
  startDateProperty : String
  endDateProperty : String
  row : ℕ
  group : Option String
  parentId : Option String
deriving DecidableEq, Repr

/-- Comparator `(a, b) => a.startDate.getTime() - b.startDate.getTime()` as
the relation underlying the stable sort. -/
def startLe (a b : Task) : Prop := a.startDate ≤ b.startDate

instance : DecidableRel startLe :=
  fun a b => inferInstanceAs (Decidable (a.startDate ≤ b.startDate))

instance : IsTotal Task startLe := ⟨fun a b => Int.le_total a.startDate b.startDate⟩

instance : IsTrans Task startLe := ⟨fun _ _ _ h h2 => le_trans h h2⟩

namespace GanttHelpers

/-- Reassign `row := index` along a list, starting from `i` (models the
`.map((task, index) => ({ ...task, row: index }))` passes). -/
def assignRowsFrom (i : ℕ) : List Task → List Task
  | [] => []
  | t :: rest => { t with row := i } :: assignRowsFrom (i + 1) rest

/-- `calculateTaskRows` from `gantt/utils/ganttHelpers.ts`: sort by start
date (stable) and give every task its own row. -/
def calculateTaskRows (tasks : List Task) : List Task :=
  assignRowsFrom 0 (List.insertionSort startLe tasks)

/-- The group bucket name of a task: `task.group || 'No Group'` (JavaScript
falsiness maps both a missing group and the empty string to the default). -/
def groupName (t : Task) : String :=
  match t.group with
  | none => "No Group"
  | some s => if s = "" then "No Group" else s

/-- Append `t` to the bucket for key `k` in an insertion-ordered
association list (the `Map` in `groupTasksByProperty`). -/
def upsert (m : List (String × List Task)) (k : String) (t : Task) :
    List (String × List Task) :=
  match m with
  | [] => [(k, [t])]
  | (k', ts) :: rest =>
    if k' = k then (k', ts ++ [t]) :: rest else (k', ts) :: upsert rest k t

/-- `groupTasksByProperty` from `gantt/utils/ganttHelpers.ts` (the
`groupByProperty` argument is unused in the source as well; bucketing uses
the `group` field already stored on each task). -/
def groupTasksByProperty (tasks : List Task) (groupByProperty : String) :
    List (String × List Task) :=
  let _ := groupByProperty
  tasks.foldl (fun m t => upsert m (groupName t) t) []

/-- `localeCompare` for the ASCII group names used here: sign of the
lexicographic comparison on the underlying character lists. -/
def localeCompare (a b : String) : ℤ :=
  if a.data < b.data then -1 else if a.data = b.data then 0 else 1

/-- The group-name comparator: alphabetical, with "No Group" always last. -/
def groupNameCmp (a b : String) : ℤ :=
  if a = "No Group" then 1 else if b = "No Group" then -1 else localeCompare a b

/-- The sort relation induced by `groupNameCmp`. -/
def groupNameLe (a b : String) : Prop := groupNameCmp a b ≤ 0

instance : DecidableRel groupNameLe :=
  fun a b => inferInstanceAs (Decidable (groupNameCmp a b ≤ 0))

/-- `TaskGroup` from `view-config.ts`. -/
structure TaskGroup where
  name : String
  tasks : List Task
  startRow : ℕ
  rowCount : ℕ
  isCollapsed : Bool
deriving DecidableEq, Repr

/-- `Math.max(...rows)` over the local rows, `-1` when there are none. -/
def maxLocalRow (locals : List Task) : ℤ :=
  match locals.map (fun t => (t.row : ℤ)) with
  | [] => -1
  | r :: rs => rs.foldl max r

/-- The group walk inside `calculateGroupedRows`: one header row per group,
collapsed groups reserve nothing further, expanded groups lay their members
out with `calculateTaskRows` offset by the running cursor. -/
def groupedRowsGo (grouped : List (String × List Task)) (collapsed : List String) :
    List String → ℕ → List Task × List TaskGroup
  | [], _ => ([], [])
  | name :: rest, currentRow =>
    let groupTasks := (List.lookup name grouped).getD []
    if collapsed.contains name then
      let out := groupedRowsGo grouped collapsed rest (currentRow + 1)
      (out.1,
       { name := name, tasks := groupTasks, startRow := currentRow,
         rowCount := 1, isCollapsed := true } :: out.2)
    else
      let locals := calculateTaskRows groupTasks
      let globals := locals.map (fun t => { t with row := t.row + (currentRow + 1) })
      let mlr := maxLocalRow locals
      let out := groupedRowsGo grouped collapsed rest (currentRow + 1 + (mlr + 1).toNat)
      (globals ++ out.1,
       { name := name, tasks := globals, startRow := currentRow,
         rowCount := (mlr + 2).toNat, isCollapsed := false } :: out.2)

/-- `calculateGroupedRows` from `gantt/utils/ganttHelpers.ts`. -/
def calculateGroupedRows (grouped : List (String × List Task))
    (collapsed : List String) : List Task × List TaskGroup :=
  groupedRowsGo grouped collapsed
    (List.insertionSort groupNameLe (grouped.map Prod.fst)) 0

/-- The `taskMap` of `sortTasksByHierarchy`: keyed by both title and id,
later insertions overwrite earlier ones. -/
def taskMapGet (tasks : List Task) (key : String) : Option Task :=
  tasks.foldl (fun acc t => if key = t.title ∨ key = t.id then some t else acc) none

/-- Relationship pass of `sortTasksByHierarchy`: a `parentId` that does not
resolve against the task map is cleared. -/
def resolveParents (tasks : List Task) : List Task :=
  tasks.map fun t =>
    match t.parentId with
    | some p => if (taskMapGet tasks p).isSome then t else { t with parentId := none }
    | none => t

/-- The `childrenMap` bucket for a given parent title (children listed in
input order). -/
def childrenOf (tasks2 : List Task) (key : String) : List Task :=
  tasks2.filter fun t =>
    match t.parentId with
    | some p =>
      match taskMapGet tasks2 p with
      | some parent => parent.title == key
      | none => false
    | none => false

/-- Titles recorded in the `hasParent` set. -/
def hasParentTitles (tasks2 : List Task) : List String :=
  (tasks2.filter (fun t => t.parentId.isSome)).map (fun t => t.title)

/-- Roots: no parent and at least one resolved child. -/
def rootsOf (tasks2 : List Task) : List Task :=
  tasks2.filter fun t =>
    !(hasParentTitles tasks2).contains t.title && !(childrenOf tasks2 t.title).isEmpty

/-- True orphans: no parent and no children. -/
def trueOrphansOf (tasks2 : List Task) : List Task :=
  tasks2.filter fun t =>
    !(hasParentTitles tasks2).contains t.title && (childrenOf tasks2 t.title).isEmpty

/-- The recursive `visit` of `sortTasksByHierarchy` as an explicit-stack
preorder walk with a visited set (the `processing` cycle check in the
source is unreachable because every node is added to `visited` at the same
moment it is added to `processing`).  Fuel bounds the recursion; the caller
passes more fuel than the walk can consume. -/
def dfs (tasks2 : List Task) : ℕ → List Task → List String → List Task
  | 0, _, _ => []
  | _ + 1, [], _ => []
  | fuel + 1, t :: stack, visited =>
    if visited.contains t.title then dfs tasks2 fuel stack visited
    else
      t :: dfs tasks2 fuel
        (List.insertionSort startLe (childrenOf tasks2 t.title) ++ stack)
        (t.title :: visited)

/-- Earliest start date of a non-empty task list. -/
def minStart : List Task → ℤ
  | [] => 0
  | t :: ts => ts.foldl (fun m u => min m u.startDate) t.startDate

/-- Latest end date of a non-empty task list. -/
def maxEnd : List Task → ℤ
  | [] => 0
  | t :: ts => ts.foldl (fun m u => max m u.endDate) t.endDate

/-- The synthetic "Orphans" placeholder item. -/
def virtualOrphanParent (minD maxD : ℤ) : Task :=
  { id := "virtual-orphan-parent", title := "Orphans", startDate := minD,
    endDate := maxD, startDateProperty := "", endDateProperty := "",
    row := 0, group := some "Orphans", parentId := none }

/-- `sortTasksByHierarchy` from `gantt/utils/ganttHelpers.ts`. -/
def sortTasksByHierarchy (tasks : List Task) : List Task :=
  let tasks2 := resolveParents tasks
  let roots := List.insertionSort startLe (rootsOf tasks2)
  let fuel := (tasks.length + 1) * (tasks.length + 1)
  let visitedOut := dfs tasks2 fuel roots []
  let orphans := trueOrphansOf tasks2
  let sortedTasks :=
    if orphans.isEmpty then visitedOut
    else
      visitedOut ++
        (virtualOrphanParent (minStart orphans) (maxEnd orphans) ::
          List.insertionSort startLe orphans)
  assignRowsFrom 0 sortedTasks

end GanttHelpers

namespace DateCalc

/-- The row scan of the packing `calculateTaskRows`: index of the first row
whose recorded end date is strictly before `s`, else the number of rows. -/
def findRow : List ℤ → ℤ → ℕ
  | [], _ => 0
  | e :: rest, s => if e < s then 0 else findRow rest s + 1

/-- `rowEndDates[row] = task.endDate`: update in place, or append when the
scan ran past the end. -/
def setRowEnd (rowEnds : List ℤ) (r : ℕ) (e : ℤ) : List ℤ :=
  if r < rowEnds.length then rowEnds.set r e else rowEnds ++ [e]

/-- The fold of the packing `calculateTaskRows`: assign each task the first
available row and record its end date; returns the assigned tasks and the
final row end dates. -/
def packGo : List Task → List ℤ → List Task × List ℤ
  | [], rowEnds => ([], rowEnds)
  | t :: rest, rowEnds =>
    let r := findRow rowEnds t.startDate
    let out := packGo rest (setRowEnd rowEnds r t.endDate)
    ({ t with row := r } :: out.1, out.2)

/-- The packing variant of `calculateTaskRows` (second document of
`gantt/utils/dateCalculations.ts`): stable sort by start date, then greedy
first-fit row assignment. -/
def calculateTaskRows (tasks : List Task) : List Task :=
  (packGo (List.insertionSort startLe tasks) []).1

/-- Number of rows the packing variant produces. -/
def packedRowCount (tasks : List Task) : ℕ :=
  (packGo (List.insertionSort startLe tasks) []).2.length

end DateCalc

namespace Calendar

/-- Milliseconds per day. -/
def msPerDay : ℤ := 86400000

/-- A calendar-view date: local day number plus millisecond of day.  This
carries enough structure for both timestamp comparisons (`getTime`) and
day-level operations (`isSameDay`, `startOfDay`). -/
structure CDate where
  day : ℤ
  ms : ℤ
deriving DecidableEq, Repr

/-- JavaScript `Date.prototype.getTime`. -/
def getTime (d : CDate) : ℤ := d.day * msPerDay + d.ms

/-- Rebuild a normalised date from a timestamp. -/
def ofTime (t : ℤ) : CDate := ⟨t.fdiv msPerDay, t.fmod msPerDay⟩

/-- date-fns `isSameDay`. -/
def isSameDay (a b : CDate) : Bool := a.day == b.day

/-- date-fns `isBefore`. -/
def isBefore (a b : CDate) : Bool := getTime a < getTime b

/-- date-fns `isAfter`. -/
def isAfter (a b : CDate) : Bool := getTime b < getTime a

/-- date-fns `startOfDay`. -/
def startOfDay (d : CDate) : CDate := ⟨d.day, 0⟩

/-- date-fns `endOfDay` (23:59:59.999). -/
def endOfDay (d : CDate) : CDate := ⟨d.day, msPerDay - 1⟩

/-- date-fns `addMinutes`. -/
def addMinutes (d : CDate) (n : ℤ) : CDate := ofTime (getTime d + n * 60000)

/-- `CalendarEvent` from `view-config.ts`. -/
structure CalendarEvent where
  id : String
  title : String
  date : CDate
  endDate : Option CDate
deriving DecidableEq, Repr

/-- An input entry for `entriesToEvents`, with the two date properties
already sent through `parseDate` (the string/number/object parsing layer is
abstracted to its `Date | null` result; `dateProp` is the value of the
configured start property after the fallback to the literal property named
"date", `endProp` the value of the configured end property when one is
configured). -/
structure CEntry where
  id : String
  title : String
  dateProp : Option CDate
  endProp : Option CDate
deriving DecidableEq, Repr

/-- `entriesToEvents` from `calendar/utils/calendarHelpers.ts`: an entry
without a parseable start date is skipped; a parsed end date is kept only
when it is strictly after the start date. -/
def entriesToEvents (entries : List CEntry) : List CalendarEvent :=
  entries.foldr (fun entry events =>
    match entry.dateProp with
    | none => events
    | some date =>
      let endDate : Option CDate :=
        match entry.endProp with
        | some parsedEndDate =>
          if getTime date < getTime parsedEndDate then some parsedEndDate else none
        | none => none
      { id := entry.id, title := entry.title, date := date, endDate := endDate }
        :: events) []

/-- `isMultiDayEvent` from `calendar/utils/calendarHelpers.ts`. -/
def isMultiDayEvent (e : CalendarEvent) : Bool :=
  match e.endDate with
  | none => false
  | some ed => !isSameDay e.date ed

/-- Span of a multi-day event inside one displayed week
(`calculateEventSpanInWeek` result type). -/
structure SpanInfo where
  startCol : ℤ
  colSpan : ℤ
  continuesBefore : Bool
  continuesAfter : Bool
deriving DecidableEq, Repr

/-- `calculateEventSpanInWeek` from `calendar/utils/calendarHelpers.ts`. -/
def calculateEventSpanInWeek (event : CalendarEvent) (weekDays : List CDate) :
    SpanInfo :=
  match weekDays, event.endDate with
  | [], _ => ⟨0, 1, false, false⟩
  | _, none => ⟨0, 1, false, false⟩
  | wd :: wds, some ed =>
    let weekStart := startOfDay wd
    let weekEnd := startOfDay ((wd :: wds).getLast (by simp))
    let eventStart := startOfDay event.date
    let eventEnd := startOfDay ed
    let continuesBefore := isBefore eventStart weekStart
    let continuesAfter := isAfter eventEnd weekEnd
    let startCol : ℤ :=
      if continuesBefore then 0
      else
        match (wd :: wds).findIdx? (fun day => isSameDay day eventStart) with
        | some i => (i : ℤ)
        | none => 0
    let endCol : ℤ :=
      if continuesAfter then 6
      else
        match (wd :: wds).findIdx? (fun day => isSameDay day eventEnd) with
        | some i => (i : ℤ)
        | none => 6
    ⟨startCol, endCol - startCol + 1, continuesBefore, continuesAfter⟩

/-- The three-level stacking comparator of `getMultiDayEventsForWeek`:
longer visible span first, then earlier actual start date, then smaller
start column. -/
def stackCmp (weekDays : List CDate) (a b : CalendarEvent) : ℤ :=
  let spanA := calculateEventSpanInWeek a weekDays
  let spanB := calculateEventSpanInWeek b weekDays
  if spanB.colSpan ≠ spanA.colSpan then spanB.colSpan - spanA.colSpan
  else
    let startDiff := getTime a.date - getTime b.date
    if startDiff ≠ 0 then startDiff
    else spanA.startCol - spanB.startCol

/-- The sort relation induced by `stackCmp`. -/
def stackLe (weekDays : List CDate) (a b : CalendarEvent) : Prop :=
  stackCmp weekDays a b ≤ 0

instance (weekDays : List CDate) : DecidableRel (stackLe weekDays) :=
  fun a b => inferInstanceAs (Decidable (stackCmp weekDays a b ≤ 0))

/-- The week-overlap filter of `getMultiDayEventsForWeek`. -/
def multiDayInWeek (weekStart weekEnd : CDate) (e : CalendarEvent) : Bool :=
  match e.endDate with
  | none => false
  | some ed =>
    !isSameDay e.date ed &&
      !isAfter (startOfDay e.date) weekEnd && !isBefore (endOfDay ed) weekStart

/-- `getMultiDayEventsForWeek` from `calendar/utils/calendarHelpers.ts`:
filter to multi-day events overlapping the week, then stable-sort with the
three-level stacking comparator. -/
def getMultiDayEventsForWeek (events : List CalendarEvent)
    (weekDays : List CDate) : List CalendarEvent :=
  match weekDays with
  | [] => []
  | wd :: wds =>
    let weekStart := startOfDay wd
    let weekEnd := endOfDay ((wd :: wds).getLast (by simp))
    List.insertionSort (stackLe (wd :: wds))
      (events.filter (multiDayInWeek weekStart weekEnd))

end Calendar

namespace Hooks

/-- Which handle of a bar or event a resize gesture grabbed. -/
inductive Handle where
  | hstart : Handle
  | hend : Handle
deriving DecidableEq, Repr

/-- One pointer-move sample of the Gantt `useTaskResize` hook (the variant
in `gantt/hooks/useGanttData.ts`): compute the proposed date from the pixel
delta, and emit a property update unless the date is unchanged or the
update would invert the start/end order.  `originalDate` is captured at
gesture start. -/
def resizeMoveEmit (task : Task) (handle : Handle) (pixelsPerDay : ℚ)
    (deltaX : ℚ) : Option (String × ℤ) :=
  let originalDate := match handle with
    | .hstart => task.startDate
    | .hend => task.endDate
  let newDate := DateCalc.calculateDateFromDelta originalDate deltaX pixelsPerDay .day
  let propertyName := match handle with
    | .hstart => task.startDateProperty
    | .hend => task.endDateProperty
  if newDate ≠ originalDate then
    if handle = .hstart ∧ task.endDate ≤ newDate then none
    else if handle = .hend ∧ newDate ≤ task.startDate then none
    else some (propertyName, newDate)
  else none

/-- All property updates emitted by a Gantt resize gesture: one optional
emission per pointer-move sample; pointer-up emits nothing. -/
def ganttResizeGestureEmits (task : Task) (handle : Handle)
    (pixelsPerDay : ℚ) (moves : List ℚ) : List (String × ℤ) :=
  moves.filterMap (resizeMoveEmit task handle pixelsPerDay)

/-- `pixelsToMinutes` from `calendar/hooks/useTimedEventDrag.ts`
(HOUR_HEIGHT = 60, MINUTES_PER_SNAP = 15). -/
def pixelsToMinutes (pixels : ℚ) : ℤ :=
  let rawMinutes := pixels / 60 * 60
  jsRound (rawMinutes / 15) * 15

/-- A property update emitted to the persistence layer. -/
structure Commit where
  prop : String
  value : Calendar.CDate
deriving DecidableEq, Repr

/-- The snapped minute delta a `useTimedEventDrag` gesture holds at
pointer-up: recomputed from scratch on every move, so it is the value of
the last move sample (zero when the pointer never moved). -/
def gestureDeltaMinutes (moves : List ℚ) : ℤ :=
  match moves.getLast? with
  | none => 0
  | some py => pixelsToMinutes py

/-- The `useTimedEventDrag` drag gesture: pointer moves only update preview
state (`setDragDeltaMinutes`) and emit nothing; pointer-up emits one start
and one end update when the final snapped delta is nonzero.  The result is
(emissions during moves, emissions at pointer-up). -/
def calendarDragGesture (ev : Calendar.CalendarEvent)
    (dateProperty endDateProperty : String) (moves : List ℚ) :
    List Commit × List Commit :=
  let originalStartDate := ev.date
  let originalEndDate := ev.endDate.getD (Calendar.addMinutes ev.date 30)
  let duration := Calendar.getTime originalEndDate - Calendar.getTime originalStartDate
  let currentDeltaMinutes : ℤ := gestureDeltaMinutes moves
  let upEmits : List Commit :=
    if currentDeltaMinutes ≠ 0 then
      let newStartDate := Calendar.addMinutes originalStartDate currentDeltaMinutes
      let newEndDate := Calendar.ofTime (Calendar.getTime newStartDate + duration)
      [⟨dateProperty, newStartDate⟩, ⟨endDateProperty, newEndDate⟩]
    else []
  ([], upEmits)

/-- The `useTimedEventDrag` resize gesture: pointer moves only update
preview state; pointer-up emits at most one update, and only when it keeps
the start strictly before the end. -/
def calendarResizeGesture (ev : Calendar.CalendarEvent)
    (dateProperty endDateProperty : String) (edge : Handle) (moves : List ℚ) :
    List Commit × List Commit :=
  let originalStartDate := ev.date
  let originalEndDate := ev.endDate.getD (Calendar.addMinutes ev.date 30)
  let currentDeltaMinutes : ℤ := gestureDeltaMinutes moves
  let upEmits : List Commit :=
    if currentDeltaMinutes ≠ 0 then
      match edge with
      | .hstart =>
        let newStartDate := Calendar.addMinutes originalStartDate currentDeltaMinutes
        if Calendar.getTime newStartDate < Calendar.getTime originalEndDate then
          [⟨dateProperty, newStartDate⟩]
        else []
      | .hend =>
        let newEndDate := Calendar.addMinutes originalEndDate currentDeltaMinutes
        if Calendar.getTime originalStartDate < Calendar.getTime newEndDate then
          [⟨endDateProperty, newEndDate⟩]
        else []
    else []
  ([], upEmits)

end Hooks

/-! Helper lemmas. -/

/-- Rounding an integer is the identity. -/
theorem jsRound_intCast (n : ℤ) : jsRound ((n : ℚ)) = n := by
  unfold jsRound
  rw [Int.floor_int_add]
  norm_num

/-! Claim C1. -/

/-- Claim C1: unit counting and bar sizing treat the range end as
inclusive: at day granularity `getTimelineUnitCount` is the calendar-day
difference plus one (so a ten-day inclusive range yields 10), and a
single-day item on a ten-day timeline gets `width = 10` percent, never 0. -/
theorem C1_inclusive_units :
    (∀ s e : ℤ, DateCalc.getTimelineUnitCount s e .day =
      DateFns.differenceInDays e s + 1) ∧
    DateCalc.getTimelineUnitCount 0 9 .day = 10 ∧
    ∀ d s e : ℤ, e = s + 9 →
      (DateCalc.calculateTaskPosition d d s e).width = 10 ∧
      (DateCalc.calculateTaskPosition d d s e).width ≠ 0 := by
  refine ⟨fun s e => rfl, by norm_num [DateCalc.getTimelineUnitCount,
    DateFns.differenceInDays], ?_⟩
  intro d s e he
  subst he
  constructor
  · simp only [DateCalc.calculateTaskPosition, DateFns.differenceInDays]
    norm_num
  · simp only [DateCalc.calculateTaskPosition, DateFns.differenceInDays]
    norm_num

/-- Witness for C1 at a concrete single-day item on the ten-day timeline
0..9. -/
theorem C1_witness :
    (DateCalc.calculateTaskPosition 3 3 0 9).width = 10 ∧
    (DateCalc.calculateTaskPosition 3 3 0 9).width ≠ 0 :=
  C1_inclusive_units.2.2 3 0 9 rfl

/-! Claim C8. -/

/-- Claim C8: dragging by `+N` units worth of pixels and then by `-N` units
worth of pixels at day granularity returns exactly the original date, for
every date, every integer `N` and every positive pixels-per-unit. -/
theorem C8_round_trip (d N : ℤ) (ppu : ℚ) (hppu : 0 < ppu) :
    DateCalc.calculateDateFromDelta
      (DateCalc.calculateDateFromDelta d ((N : ℚ) * ppu) ppu .day)
      (-((N : ℚ) * ppu)) ppu .day = d := by
  have hne : ppu ≠ 0 := ne_of_gt hppu
  simp only [DateCalc.calculateDateFromDelta, DateFns.addDays]
  rw [mul_div_assoc, div_self hne, mul_one, neg_div, mul_div_assoc,
    div_self hne, mul_one]
  rw [show (-(N : ℚ)) = ((-N : ℤ) : ℚ) by push_cast; ring]
  rw [jsRound_intCast, jsRound_intCast]
  omega

/-- Witness for C8 at a concrete date, delta and scale. -/
theorem C8_witness :
    DateCalc.calculateDateFromDelta
      (DateCalc.calculateDateFromDelta 100 ((7 : ℚ) * 3) 3 .day)
      (-((7 : ℚ) * 3)) 3 .day = 100 :=
  C8_round_trip 100 7 3 (by norm_num)

/-! Claim C10. -/

/-- Claim C10: every event produced by `entriesToEvents` either has no end
date (and is then treated as single-day by `isMultiDayEvent`) or has an end
date strictly after its start date; an end-date value equal to or earlier
than the start date is silently discarded. -/
theorem C10_end_date_invariant (entries : List Calendar.CEntry)
    (ev : Calendar.CalendarEvent) (hev : ev ∈ Calendar.entriesToEvents entries) :
    (ev.endDate = none ∧ Calendar.isMultiDayEvent ev = false) ∨
    (∃ ed, ev.endDate = some ed ∧
      Calendar.getTime ev.date < Calendar.getTime ed) := by
  induction entries with
  | nil => simp [Calendar.entriesToEvents] at hev
  | cons entry rest ih =>
    simp only [Calendar.entriesToEvents, List.foldr_cons] at hev
    match hentry : entry.dateProp with
    | none =>
      rw [hentry] at hev
      exact ih hev
    | some date =>
      rw [hentry] at hev
      rcases List.mem_cons.mp hev with heq | hmem
      · subst heq
        match hend : entry.endProp with
        | none =>
          left
          simp [hend, Calendar.isMultiDayEvent]
        | some parsedEndDate =>
          by_cases hlt : Calendar.getTime date < Calendar.getTime parsedEndDate
          · right
            exact ⟨parsedEndDate, by simp [hend, hlt], by simpa using hlt⟩
          · left
            simp [hend, hlt, Calendar.isMultiDayEvent]
      · exact ih hmem

/-- Witness for C10: an entry whose end property equals its start property
produces an event with the end date discarded and treated as single-day. -/
theorem C10_witness :
    ((⟨"e1", "E", ⟨0, 0⟩, none⟩ : Calendar.CalendarEvent).endDate = none ∧
      Calendar.isMultiDayEvent ⟨"e1", "E", ⟨0, 0⟩, none⟩ = false) ∨
    (∃ ed, (⟨"e1", "E", ⟨0, 0⟩, none⟩ : Calendar.CalendarEvent).endDate = some ed ∧
      Calendar.getTime (⟨"e1", "E", ⟨0, 0⟩, none⟩ : Calendar.CalendarEvent).date <
        Calendar.getTime ed) :=
  C10_end_date_invariant [⟨"e1", "E", some ⟨0, 0⟩, some ⟨0, 0⟩⟩] _ (by decide)

/-! Claim C5. -/

/-- The two mutually-referencing tasks of the cycle test
(`A(parent=B), B(parent=A)`). -/
def cycleTaskA : Task :=
  { id := "A", title := "A", startDate := 0, endDate := 1,
    startDateProperty := "start", endDateProperty := "end",
    row := 0, group := none, parentId := some "B" }

/-- Companion task of `cycleTaskA`. -/
def cycleTaskB : Task :=
  { id := "B", title := "B", startDate := 2, endDate := 3,
    startDateProperty := "start", endDateProperty := "end",
    row := 1, group := none, parentId := some "A" }

/-- Claim C5 (evaluation at the failing input): on the pure two-cycle both
tasks are marked as having a parent, so neither is a root nor a true
orphan, and `sortTasksByHierarchy` returns the empty list — both tasks are
dropped, contradicting the repository test that asserts
`sorted.length === 2` for exactly this input. -/
theorem C5_cycle_drops_tasks :
    GanttHelpers.sortTasksByHierarchy [cycleTaskA, cycleTaskB] = [] := by
  decide


/-! Claim C4. -/

/-- Concrete task for the C4 counterexample. -/
def c4Task : Task :=
  { id := "t4", title := "T4", startDate := 0, endDate := 4,
    startDateProperty := "start", endDateProperty := "due",
    row := 0, group := none, parentId := none }

/-- Counterexample to claim C4 as stated: in the Gantt resize hook a
gesture of two pointer-move samples emits a property-update commit at each
sample (two commits for the same property before any pointer-up), so
intermediate pointer-move samples do commit and more than one commit per
affected property is emitted. -/
theorem C4_counterexample :
    Hooks.ganttResizeGestureEmits c4Task .hend 1 [1, 2] =
      [("due", 5), ("due", 6)] := by
  have h1 : jsRound ((1 : ℚ)) = 1 := by norm_num [jsRound]
  have h2 : jsRound ((2 : ℚ)) = 2 := by norm_num [jsRound]
  simp [Hooks.ganttResizeGestureEmits, Hooks.resizeMoveEmit,
    DateCalc.calculateDateFromDelta, DateFns.addDays, c4Task,
    List.filterMap]
  norm_num [h1, h2]

/-- Claim C4 as amended: in the calendar timed-event drag hook, pointer
moves emit nothing, and pointer-up emits either nothing (zero snapped
delta) or exactly one commit for the start property and one for the end
property; the Gantt resize hook instead commits on pointer-move samples
(see the counterexample). -/
theorem C4_commit_discipline (ev : Calendar.CalendarEvent)
    (p q : String) (moves : List ℚ) :
    (Hooks.calendarDragGesture ev p q moves).1 = [] ∧
    ((Hooks.calendarDragGesture ev p q moves).2 = [] ∨
      (Hooks.calendarDragGesture ev p q moves).2.map Hooks.Commit.prop = [p, q]) := by
  refine ⟨rfl, ?_⟩
  unfold Hooks.calendarDragGesture
  by_cases h : Hooks.gestureDeltaMinutes moves ≠ 0
  · right
    simp [h]
  · left
    simp at h
    simp [h]

/-! Claim C6. -/

/-- Concrete task for the C6 counterexample. -/
def c6Task : Task :=
  { id := "t6", title := "T6", startDate := 0, endDate := 4,
    startDateProperty := "start", endDateProperty := "due",
    row := 0, group := none, parentId := none }

/-- Counterexample to claim C6 as stated: a Gantt end-handle gesture whose
final sample proposes an end date on the start date (an inverting resize)
still emitted a commit at an earlier valid sample, so the stored end date
does not remain unchanged over such a gesture. -/
theorem C6_counterexample :
    Hooks.ganttResizeGestureEmits c6Task .hend 1 [-2, -4] = [("due", 2)] ∧
    DateCalc.calculateDateFromDelta c6Task.endDate (-4) 1 .day ≤ c6Task.startDate := by
  have h1 : jsRound ((-2 : ℚ)) = -2 := by norm_num [jsRound]
  have h2 : jsRound ((-4 : ℚ)) = -4 := by norm_num [jsRound]
  constructor
  · simp [Hooks.ganttResizeGestureEmits, Hooks.resizeMoveEmit,
      DateCalc.calculateDateFromDelta, DateFns.addDays, c6Task,
      List.filterMap]
    norm_num [h1, h2]
  · simp [DateCalc.calculateDateFromDelta, DateFns.addDays, c6Task]
    norm_num [h2]

/-- Claim C6 as amended: an order-inverting proposed date is never itself
committed — every commit a Gantt resize gesture emits keeps the end
strictly after the start (end handle) or the start strictly before the end
(start handle) — and in the calendar resize hook (which commits only at
pointer-up) a final end date at or before the start, or a final start date
at or after the end, produces no commit at all, leaving the stored value
unchanged. -/
theorem C6_resize_guard :
    (∀ (task : Task) (handle : Hooks.Handle) (ppd : ℚ) (moves : List ℚ)
      (p : String) (v : ℤ),
      (p, v) ∈ Hooks.ganttResizeGestureEmits task handle ppd moves →
      (handle = .hend → task.startDate < v) ∧
      (handle = .hstart → v < task.endDate)) ∧
    (∀ (ev : Calendar.CalendarEvent) (p q : String) (moves : List ℚ),
      Calendar.getTime (Calendar.addMinutes
          (ev.endDate.getD (Calendar.addMinutes ev.date 30))
          (Hooks.gestureDeltaMinutes moves)) ≤ Calendar.getTime ev.date →
      (Hooks.calendarResizeGesture ev p q .hend moves).2 = []) ∧
    (∀ (ev : Calendar.CalendarEvent) (p q : String) (moves : List ℚ),
      Calendar.getTime (ev.endDate.getD (Calendar.addMinutes ev.date 30)) ≤
        Calendar.getTime (Calendar.addMinutes ev.date
          (Hooks.gestureDeltaMinutes moves)) →
      (Hooks.calendarResizeGesture ev p q .hstart moves).2 = []) := by
  refine ⟨?_, ?_, ?_⟩
  · intro task handle ppd moves p v hmem
    obtain ⟨x, -, hx⟩ := List.mem_filterMap.mp hmem
    unfold Hooks.resizeMoveEmit at hx
    constructor
    · rintro rfl
      dsimp only at hx
      split_ifs at hx <;>
        first
          | exact Option.noConfusion hx
          | (simp_all <;> omega)
    · rintro rfl
      dsimp only at hx
      split_ifs at hx <;>
        first
          | exact Option.noConfusion hx
          | (simp_all <;> omega)
  · intro ev p q moves hle
    unfold Hooks.calendarResizeGesture
    by_cases h : Hooks.gestureDeltaMinutes moves ≠ 0
    · simp only [h, if_true]
      rw [if_neg (by omega : ¬ (Calendar.getTime ev.date <
        Calendar.getTime (Calendar.addMinutes
          (ev.endDate.getD (Calendar.addMinutes ev.date 30))
          (Hooks.gestureDeltaMinutes moves))))]
      simp
    · simp at h
      simp [h]
  · intro ev p q moves hle
    unfold Hooks.calendarResizeGesture
    by_cases h : Hooks.gestureDeltaMinutes moves ≠ 0
    · simp only [h, if_true]
      rw [if_neg (by omega : ¬ (Calendar.getTime (Calendar.addMinutes ev.date
          (Hooks.gestureDeltaMinutes moves)) <
        Calendar.getTime (ev.endDate.getD (Calendar.addMinutes ev.date 30))))]
      simp
    · simp at h
      simp [h]

/-- Witness for C6 at concrete inputs: a committed end date is strictly
after the start, an inverting calendar end resize commits nothing, and an
inverting calendar start resize commits nothing. -/
theorem C6_witness :
    (0 : ℤ) < 5 ∧
    (Hooks.calendarResizeGesture ⟨"e", "E", ⟨0, 0⟩, some ⟨0, 60000⟩⟩
      "d" "e" .hend [-120]).2 = [] ∧
    (Hooks.calendarResizeGesture ⟨"e", "E", ⟨0, 0⟩, some ⟨0, 60000⟩⟩
      "d" "e" .hstart [120]).2 = [] := by
  refine ⟨?_, ?_, ?_⟩
  · have h := (C6_resize_guard.1 c6Task .hend 1 [1] "due" 5 (by
      have h1 : jsRound ((1 : ℚ)) = 1 := by norm_num [jsRound]
      simp [Hooks.ganttResizeGestureEmits, Hooks.resizeMoveEmit,
        DateCalc.calculateDateFromDelta, DateFns.addDays, c6Task,
        List.filterMap]
      norm_num [h1])).1 rfl
    simpa [c6Task] using h
  · refine C6_resize_guard.2.1 _ _ _ _ ?_
    norm_num [Hooks.gestureDeltaMinutes, Hooks.pixelsToMinutes, jsRound,
      Calendar.addMinutes, Calendar.getTime, Calendar.ofTime, Calendar.msPerDay]
    have h := Int.fdiv_add_fmod (-7140000) 86400000
    omega
  · refine C6_resize_guard.2.2 _ _ _ _ ?_
    norm_num [Hooks.gestureDeltaMinutes, Hooks.pixelsToMinutes, jsRound,
      Calendar.addMinutes, Calendar.getTime, Calendar.ofTime, Calendar.msPerDay]
    have h := Int.fdiv_add_fmod 7200000 86400000
    omega

/-! Claim C7. -/

instance (wd : List Calendar.CDate) :
    IsTotal Calendar.CalendarEvent (Calendar.stackLe wd) :=
  ⟨by
    intro a b
    unfold Calendar.stackLe Calendar.stackCmp
    dsimp only
    split_ifs <;> omega⟩

instance (wd : List Calendar.CDate) :
    IsTrans Calendar.CalendarEvent (Calendar.stackLe wd) :=
  ⟨by
    intro a b c hab hbc
    unfold Calendar.stackLe Calendar.stackCmp at hab hbc ⊢
    dsimp only at hab hbc ⊢
    split_ifs at hab hbc ⊢ <;> omega⟩

/-- Days of the example week (day numbers 1..7, standing for Jan 1..7). -/
def c7week : List Calendar.CDate :=
  [⟨1, 0⟩, ⟨2, 0⟩, ⟨3, 0⟩, ⟨4, 0⟩, ⟨5, 0⟩, ⟨6, 0⟩, ⟨7, 0⟩]

/-- Five-day event Jan 1..5 of the C7 example. -/
def c7e5 : Calendar.CalendarEvent := ⟨"e5", "Five", ⟨1, 0⟩, some ⟨5, 0⟩⟩

/-- Three-day event Jan 2..4 of the C7 example. -/
def c7e3a : Calendar.CalendarEvent := ⟨"e3a", "ThreeA", ⟨2, 0⟩, some ⟨4, 0⟩⟩

/-- Three-day event Jan 4..6 of the C7 example. -/
def c7e3b : Calendar.CalendarEvent := ⟨"e3b", "ThreeB", ⟨4, 0⟩, some ⟨6, 0⟩⟩

/-- Claim C7: `getMultiDayEventsForWeek` returns exactly the multi-day
events overlapping the week, ordered by the three-level tie-break (larger
visible span, then earlier actual start date, then smaller start column);
in particular the 5/3/3-day example sorts as
`[5-day, 3-day(Jan 2), 3-day(Jan 4)]`. -/
theorem C7_stacking_order :
    (∀ (events : List Calendar.CalendarEvent) (weekDays : List Calendar.CDate),
      (Calendar.getMultiDayEventsForWeek events weekDays).Pairwise
        (Calendar.stackLe weekDays)) ∧
    (∀ (events : List Calendar.CalendarEvent) (wd : Calendar.CDate)
      (wds : List Calendar.CDate),
      (Calendar.getMultiDayEventsForWeek events (wd :: wds)).Perm
        (events.filter (Calendar.multiDayInWeek (Calendar.startOfDay wd)
          (Calendar.endOfDay ((wd :: wds).getLast (by simp)))))) ∧
    Calendar.getMultiDayEventsForWeek [c7e3b, c7e5, c7e3a] c7week =
      [c7e5, c7e3a, c7e3b] := by
  refine ⟨?_, ?_, by decide⟩
  · intro events weekDays
    match weekDays with
    | [] => simp [Calendar.getMultiDayEventsForWeek]
    | wd :: wds => exact List.sorted_insertionSort _ _
  · intro events wd wds
    exact List.perm_insertionSort _ _

/-! Claim C2. -/

/-- First member (days 0..1) of the C2 example group. -/
def c2A : Task :=
  { id := "a", title := "A", startDate := 0, endDate := 1,
    startDateProperty := "s", endDateProperty := "e",
    row := 0, group := some "G", parentId := none }

/-- Second member (days 5..6, disjoint from the first) of the C2 example
group. -/
def c2B : Task :=
  { id := "b", title := "B", startDate := 5, endDate := 6,
    startDateProperty := "s", endDateProperty := "e",
    row := 1, group := some "G", parentId := none }

/-- The C2 example grouping: one expanded group with two disjoint members. -/
def c2grouped : List (String × List Task) := [("G", [c2A, c2B])]

/-- Counterexample to claim C2 as stated: for an expanded group with two
non-overlapping members, the Group Aggregator does not assign the
interval-packing rows offset by the cursor (packing would reuse row 0 for
both members, giving global rows 1 and 1); it gives every member its own
row (global rows 1 and 2). -/
theorem C2_counterexample :
    (GanttHelpers.calculateGroupedRows c2grouped []).1 ≠
      (DateCalc.calculateTaskRows [c2A, c2B]).map
        (fun t => { t with row := t.row + 1 }) := by
  decide

/-- Helper: a fold of `max` over the rows assigned by `assignRowsFrom`. -/
theorem assignRowsFrom_foldl_max (l : List Task) :
    ∀ (i : ℕ) (a : ℤ), a ≤ (i : ℤ) →
      (((GanttHelpers.assignRowsFrom i l).map (fun t => (t.row : ℤ))).foldl max a) =
        if l.length = 0 then a else (i : ℤ) + l.length - 1 := by
  induction l with
  | nil => intro i a _; simp [GanttHelpers.assignRowsFrom]
  | cons t rest ih =>
    intro i a ha
    simp only [GanttHelpers.assignRowsFrom, List.map_cons, List.foldl_cons,
      List.length_cons]
    have hmax : max a (i : ℤ) = (i : ℤ) := max_eq_right ha
    rw [hmax, ih (i + 1) (i : ℤ) (by simp)]
    by_cases h : rest.length = 0 <;> simp [h] <;> push_cast <;> omega

/-- The one-row-per-task layout uses local rows `0 .. length - 1`, so the
maximum local row is `length - 1`. -/
theorem maxLocalRow_calculateTaskRows (m : List Task) :
    GanttHelpers.maxLocalRow (GanttHelpers.calculateTaskRows m) =
      (m.length : ℤ) - 1 := by
  unfold GanttHelpers.calculateTaskRows
  have hlen : (List.insertionSort startLe m).length = m.length :=
    (List.perm_insertionSort startLe m).length_eq
  rw [← hlen]
  generalize (List.insertionSort startLe m) = l
  unfold GanttHelpers.maxLocalRow
  match l with
  | [] => simp [GanttHelpers.assignRowsFrom]
  | t :: rest =>
    simp only [GanttHelpers.assignRowsFrom, List.map_cons, List.length_cons]
    rw [assignRowsFrom_foldl_max rest (0 + 1) (((0 : ℕ) : ℤ)) (by simp)]
    by_cases h : rest.length = 0
    · simp [h]
    · simp only [if_neg h]
      push_cast
      omega

/-- The maximum local row is never below `-1`. -/
theorem maxLocalRow_ge (l : List Task) : -1 ≤ GanttHelpers.maxLocalRow l := by
  unfold GanttHelpers.maxLocalRow
  rcases h : l.map (fun t => (t.row : ℤ)) with - | ⟨r, rs⟩
  · rw [h]
  · rw [h]
    show (-1 : ℤ) ≤ rs.foldl max r
    have hr : 0 ≤ r := by
      have hmem : r ∈ l.map (fun t => (t.row : ℤ)) := by
        rw [h]; exact List.mem_cons_self r rs
      obtain ⟨t, -, ht⟩ := List.mem_map.mp hmem
      omega
    have hfold : ∀ (xs : List ℤ) (a : ℤ), a ≤ xs.foldl max a := by
      intro xs
      induction xs with
      | nil => intro a; exact le_refl a
      | cons x xs ih =>
        intro a
        exact le_trans (le_max_left a x) (ih (max a x))
    have := hfold rs r
    omega

/-- Structure of the group walk: every expanded group in the output carries
its members laid out one row each, offset by its own header position, its
row count is the member count plus the header, consecutive groups advance
the cursor by exactly the previous row count, and the first group starts at
the initial cursor. -/
theorem groupedRowsGo_spec (grouped : List (String × List Task))
    (collapsed : List String) :
    ∀ (names : List String) (cur : ℕ),
      (∀ g ∈ (GanttHelpers.groupedRowsGo grouped collapsed names cur).2,
        g.isCollapsed = false →
          g.tasks = (GanttHelpers.calculateTaskRows
              ((List.lookup g.name grouped).getD [])).map
              (fun t => { t with row := t.row + (g.startRow + 1) }) ∧
          g.rowCount = ((List.lookup g.name grouped).getD []).length + 1) ∧
      List.Chain' (fun g h => h.startRow = g.startRow + g.rowCount)
        (GanttHelpers.groupedRowsGo grouped collapsed names cur).2 ∧
      (∀ g, (GanttHelpers.groupedRowsGo grouped collapsed names cur).2.head? =
          some g → g.startRow = cur) := by
  intro names
  induction names with
  | nil => intro cur; refine ⟨by simp [GanttHelpers.groupedRowsGo], ?_, ?_⟩ <;>
      simp [GanttHelpers.groupedRowsGo]
  | cons name rest ih =>
    intro cur
    by_cases hc : collapsed.contains name
    · have hgo : GanttHelpers.groupedRowsGo grouped collapsed (name :: rest) cur =
        ((GanttHelpers.groupedRowsGo grouped collapsed rest (cur + 1)).1,
         { name := name, tasks := (List.lookup name grouped).getD [],
           startRow := cur, rowCount := 1, isCollapsed := true } ::
           (GanttHelpers.groupedRowsGo grouped collapsed rest (cur + 1)).2) := by
        conv_lhs => rw [GanttHelpers.groupedRowsGo]
        rw [if_pos hc]
      refine ⟨?_, ?_, ?_⟩
      · intro g hg hflat
        rw [hgo] at hg
        rcases List.mem_cons.mp hg with heq | hmem
        · subst heq; simp at hflat
        · exact (ih (cur + 1)).1 g hmem hflat
      · rw [hgo]
        rw [List.chain'_cons']
        refine ⟨?_, (ih (cur + 1)).2.1⟩
        intro h hh
        have := (ih (cur + 1)).2.2 h hh
        simpa using this
      · intro g hg
        rw [hgo] at hg
        simp only [List.head?_cons, Option.some.injEq] at hg
        subst hg
        rfl
    · have hgo : GanttHelpers.groupedRowsGo grouped collapsed (name :: rest) cur =
        (((GanttHelpers.calculateTaskRows ((List.lookup name grouped).getD [])).map
            (fun t => { t with row := t.row + (cur + 1) })) ++
          (GanttHelpers.groupedRowsGo grouped collapsed rest
            (cur + 1 + (GanttHelpers.maxLocalRow (GanttHelpers.calculateTaskRows
              ((List.lookup name grouped).getD [])) + 1).toNat)).1,
         { name := name,
           tasks := (GanttHelpers.calculateTaskRows
              ((List.lookup name grouped).getD [])).map
              (fun t => { t with row := t.row + (cur + 1) }),
           startRow := cur,
           rowCount := (GanttHelpers.maxLocalRow (GanttHelpers.calculateTaskRows
              ((List.lookup name grouped).getD [])) + 2).toNat,
           isCollapsed := false } ::
           (GanttHelpers.groupedRowsGo grouped collapsed rest
            (cur + 1 + (GanttHelpers.maxLocalRow (GanttHelpers.calculateTaskRows
              ((List.lookup name grouped).getD [])) + 1).toNat)).2) := by
        conv_lhs => rw [GanttHelpers.groupedRowsGo]
        rw [if_neg hc]
      set members := (List.lookup name grouped).getD [] with hm
      set cur' := cur + 1 + (GanttHelpers.maxLocalRow
        (GanttHelpers.calculateTaskRows members) + 1).toNat with hcur
      refine ⟨?_, ?_, ?_⟩
      · intro g hg hflat
        rw [hgo] at hg
        rcases List.mem_cons.mp hg with heq | hmem
        · subst heq
          refine ⟨rfl, ?_⟩
          show (GanttHelpers.maxLocalRow (GanttHelpers.calculateTaskRows members)
            + 2).toNat = members.length + 1
          rw [maxLocalRow_calculateTaskRows]
          omega
        · exact (ih cur').1 g hmem hflat
      · rw [hgo]
        rw [List.chain'_cons']
        refine ⟨?_, (ih cur').2.1⟩
        intro h hh
        have hhead := (ih cur').2.2 h hh
        have hge := maxLocalRow_ge (GanttHelpers.calculateTaskRows members)
        simp only [hhead, hcur]
        show cur + 1 + (GanttHelpers.maxLocalRow
            (GanttHelpers.calculateTaskRows members) + 1).toNat =
          cur + (GanttHelpers.maxLocalRow
            (GanttHelpers.calculateTaskRows members) + 2).toNat
        omega
      · intro g hg
        rw [hgo] at hg
        simp only [List.head?_cons, Option.some.injEq] at hg
        subst hg
        rfl

/-- Claim C2 as amended: for every expanded group, the Group Aggregator
assigns its members one row each in ascending start-date order (the
one-row-per-member variant of `calculateTaskRows`, not the section-4.2
interval packer), offset by the group header position; the row count is
the member count plus the header row, and the cursor advances by exactly
the previous row count (first group at row 0). -/
theorem C2_grouped_layout (grouped : List (String × List Task))
    (collapsed : List String) :
    (∀ g ∈ (GanttHelpers.calculateGroupedRows grouped collapsed).2,
      g.isCollapsed = false →
        g.tasks = (GanttHelpers.calculateTaskRows
            ((List.lookup g.name grouped).getD [])).map
            (fun t => { t with row := t.row + (g.startRow + 1) }) ∧
        g.rowCount = ((List.lookup g.name grouped).getD []).length + 1) ∧
    List.Chain' (fun g h => h.startRow = g.startRow + g.rowCount)
      (GanttHelpers.calculateGroupedRows grouped collapsed).2 ∧
    (∀ g, (GanttHelpers.calculateGroupedRows grouped collapsed).2.head? =
        some g → g.startRow = 0) :=
  groupedRowsGo_spec grouped collapsed
    (List.insertionSort GanttHelpers.groupNameLe (grouped.map Prod.fst)) 0

/-- Witness for C2 at the concrete example group. -/
theorem C2_witness :
    ([{ c2A with row := 1 }, { c2B with row := 2 }] : List Task) =
      (GanttHelpers.calculateTaskRows ((List.lookup "G" c2grouped).getD [])).map
        (fun t => { t with row := t.row + (0 + 1) }) ∧
    (3 : ℕ) = ((List.lookup "G" c2grouped).getD []).length + 1 :=
  (C2_grouped_layout c2grouped []).1
    { name := "G", tasks := [{ c2A with row := 1 }, { c2B with row := 2 }],
      startRow := 0, rowCount := 3, isCollapsed := false } (by decide) rfl

/-! Claim C3: the packing variant produces exactly as many rows as the
maximum number of mutually overlapping intervals at a single point. -/

/-- Whether the (inclusive) interval of a task contains the point `p`. -/
def containsB (t : Task) (p : ℤ) : Bool :=
  decide (t.startDate ≤ p) && decide (p ≤ t.endDate)

/-- Number of tasks in the list whose interval contains `p`. -/
def overlapCount (tasks : List Task) (p : ℤ) : ℕ :=
  (tasks.filter (fun t => containsB t p)).length

/-- The scan never runs past the end of the row list. -/
theorem findRow_le_length (re : List ℤ) (s : ℤ) :
    DateCalc.findRow re s ≤ re.length := by
  induction re with
  | nil => simp [DateCalc.findRow]
  | cons e rest ih =>
    unfold DateCalc.findRow
    by_cases h : e < s <;> simp [h] <;> omega

/-- When the scan stops inside the list, the found row ends strictly before
`s`. -/
theorem findRow_found (re : List ℤ) (s : ℤ)
    (h : DateCalc.findRow re s < re.length) :
    re[DateCalc.findRow re s] < s := by
  induction re with
  | nil => simp [DateCalc.findRow] at h
  | cons e rest ih =>
    by_cases he : e < s
    · simpa [DateCalc.findRow, he] using he
    · have hrw : DateCalc.findRow (e :: rest) s = DateCalc.findRow rest s + 1 := by
        simp [DateCalc.findRow, he]
      have hlt : DateCalc.findRow rest s < rest.length := by
        rw [hrw] at h; simpa using h
      have := ih hlt
      simp only [hrw]
      simpa using this

/-- Every row before the one the scan selects ends at or after `s`. -/
theorem findRow_before (re : List ℤ) (s : ℤ) :
    ∀ (j : ℕ) (hj : j < re.length), j < DateCalc.findRow re s →
      s ≤ re[j] := by
  induction re with
  | nil => intro j hj _; simp at hj
  | cons e rest ih =>
    intro j hj hjf
    by_cases he : e < s
    · simp [DateCalc.findRow, he] at hjf
    · match j with
      | 0 => simpa using not_lt.mp he
      | j + 1 =>
        have hrw : DateCalc.findRow (e :: rest) s = DateCalc.findRow rest s + 1 := by
          simp [DateCalc.findRow, he]
        rw [hrw] at hjf
        have := ih j (by simpa using hj) (by omega)
        simpa using this

/-- Invariant carried through the packing fold: rows are within the row
list; every row was last used by some placed task whose end date the list
records; all tasks of a row end at or before the recorded end; tasks
sharing a row are disjoint in placement order; and some point is covered by
at least as many placed tasks as there are rows. -/
structure PackInv (placed : List Task) (re : List ℤ) : Prop where
  rowLt : ∀ t ∈ placed, t.row < re.length
  rowWitness : ∀ (j : ℕ) (hj : j < re.length),
    ∃ t ∈ placed, t.row = j ∧ t.endDate = re[j]
  endLe : ∀ t ∈ placed, ∀ (hj : t.row < re.length), t.endDate ≤ re[t.row]
  disj : placed.Pairwise (fun a b => a.row = b.row → a.endDate < b.startDate)
  lower : ∃ p : ℤ, re.length ≤ overlapCount placed p

/-- A list of natural numbers without duplicates, all below `n`, has at
most `n` elements. -/
theorem length_le_of_nodup_lt (l : List ℕ) (n : ℕ) (hnd : l.Nodup)
    (hlt : ∀ x ∈ l, x < n) : l.length ≤ n := by
  have h1 : l.toFinset.card = l.length := List.toFinset_card_of_nodup hnd
  have h2 : l.toFinset ⊆ Finset.range n := by
    intro x hx
    exact Finset.mem_range.mpr (hlt x (List.mem_toFinset.mp hx))
  have := Finset.card_le_card h2
  rw [h1, Finset.card_range] at this
  exact this

/-- A list of natural numbers containing every value below `n` has at least
`n` elements. -/
theorem le_length_of_all_mem (l : List ℕ) (n : ℕ)
    (hmem : ∀ r, r < n → r ∈ l) : n ≤ l.length := by
  have h2 : Finset.range n ⊆ l.toFinset := by
    intro x hx
    exact List.mem_toFinset.mpr (hmem x (Finset.mem_range.mp hx))
  have := Finset.card_le_card h2
  rw [Finset.card_range] at this
  exact le_trans this (List.toFinset_card_le l)

/-- Upper bound extracted from the invariant: at any point, the number of
placed tasks containing that point is at most the number of rows, because
tasks sharing a row are disjoint. -/
theorem overlap_le_of_inv (placed : List Task) (re : List ℤ)
    (inv : PackInv placed re) (q : ℤ) : overlapCount placed q ≤ re.length := by
  unfold overlapCount
  set filtered := placed.filter (fun t => containsB t q) with hf
  have hpair : filtered.Pairwise (fun a b => a.row ≠ b.row) := by
    have hp := inv.disj.filter (fun t => containsB t q)
    refine hp.imp_of_mem ?_
    intro a b ha hb hrel heq
    have hca : containsB a q := (List.mem_filter.mp ha).2
    have hcb : containsB b q := (List.mem_filter.mp hb).2
    unfold containsB at hca hcb
    simp only [Bool.and_eq_true, decide_eq_true_eq] at hca hcb
    have := hrel heq
    omega
  have hnd : (filtered.map (fun t => t.row)).Nodup :=
    List.Pairwise.map _ (fun _ _ h => h) hpair
  have hlt : ∀ x ∈ filtered.map (fun t => t.row), x < re.length := by
    intro x hx
    obtain ⟨t, ht, rfl⟩ := List.mem_map.mp hx
    exact inv.rowLt t (List.mem_of_mem_filter ht)
  have := length_le_of_nodup_lt _ _ hnd hlt
  simpa using this

/-- One packing step preserves the invariant. -/
theorem packInv_step (placed : List Task) (re : List ℤ) (t : Task)
    (inv : PackInv placed re)
    (hse : t.startDate ≤ t.endDate)
    (hplaced : ∀ u ∈ placed, u.startDate ≤ t.startDate) :
    PackInv (placed ++ [{ t with row := DateCalc.findRow re t.startDate }])
      (DateCalc.setRowEnd re (DateCalc.findRow re t.startDate) t.endDate) := by
  have hrle : DateCalc.findRow re t.startDate ≤ re.length :=
    findRow_le_length re t.startDate
  by_cases hcase : DateCalc.findRow re t.startDate < re.length
  · -- reuse of an existing row
    have hset : DateCalc.setRowEnd re (DateCalc.findRow re t.startDate) t.endDate =
        re.set (DateCalc.findRow re t.startDate) t.endDate := by
      unfold DateCalc.setRowEnd
      rw [if_pos hcase]
    have hfound : re[DateCalc.findRow re t.startDate] < t.startDate :=
      findRow_found re t.startDate hcase
    rw [hset]
    refine ⟨?_, ?_, ?_, ?_, ?_⟩
    · intro u hu
      rcases List.mem_append.mp hu with h | h
      · have := inv.rowLt u h
        simpa using this
      · rcases List.mem_singleton.mp h with rfl
        simpa using hcase
    · intro j hj
      have hj' : j < re.length := by simpa using hj
      by_cases hjr : j = DateCalc.findRow re t.startDate
      · subst hjr
        refine ⟨{ t with row := DateCalc.findRow re t.startDate },
          List.mem_append_right _ (List.mem_singleton_self _), rfl, ?_⟩
        rw [List.getElem_set]
        simp
      · obtain ⟨u, hu, hrow, hend⟩ := inv.rowWitness j hj'
        refine ⟨u, List.mem_append_left _ hu, hrow, ?_⟩
        rw [List.getElem_set]
        rw [if_neg (fun hh => hjr hh.symm)]
        exact hend
    · intro u hu hj
      rcases List.mem_append.mp hu with h | h
      · have hlt := inv.rowLt u h
        by_cases hur : u.row = DateCalc.findRow re t.startDate
        · rw [List.getElem_set, if_pos hur.symm]
          have h1 := inv.endLe u h hlt
          simp only [hur] at h1
          omega
        · rw [List.getElem_set, if_neg (fun hh => hur hh.symm)]
          exact inv.endLe u h hlt
      · rcases List.mem_singleton.mp h with rfl
        rw [List.getElem_set]
        simp
    · rw [List.pairwise_append]
      refine ⟨inv.disj, List.pairwise_singleton _ _, ?_⟩
      intro a ha b hb
      rcases List.mem_singleton.mp hb with rfl
      intro heq
      have hlt : a.row < re.length := inv.rowLt a ha
      have h1 := inv.endLe a ha hlt
      simp only at heq
      simp only [heq] at h1
      show a.endDate < t.startDate
      omega
    · obtain ⟨p, hp⟩ := inv.lower
      refine ⟨p, ?_⟩
      unfold overlapCount at hp ⊢
      rw [List.filter_append, List.length_append]
      simp only [List.length_set]
      omega
  · -- a new row is appended
    have hreq : DateCalc.findRow re t.startDate = re.length := by omega
    have hset : DateCalc.setRowEnd re (DateCalc.findRow re t.startDate) t.endDate =
        re ++ [t.endDate] := by
      unfold DateCalc.setRowEnd
      rw [if_neg hcase]
    have hbefore : ∀ (j : ℕ) (hj : j < re.length), t.startDate ≤ re[j] := by
      intro j hj
      exact findRow_before re t.startDate j hj (by omega)
    rw [hset]
    refine ⟨?_, ?_, ?_, ?_, ?_⟩
    · intro u hu
      rcases List.mem_append.mp hu with h | h
      · have := inv.rowLt u h
        simp only [List.length_append, List.length_singleton]
        omega
      · rcases List.mem_singleton.mp h with rfl
        simp only [List.length_append, List.length_singleton, hreq]
        omega
    · intro j hj
      have hj' : j < re.length + 1 := by simpa using hj
      by_cases hjl : j < re.length
      · obtain ⟨u, hu, hrow, hend⟩ := inv.rowWitness j hjl
        refine ⟨u, List.mem_append_left _ hu, hrow, ?_⟩
        rw [List.getElem_append_left hjl]
        exact hend
      · have hjeq : j = re.length := by omega
        refine ⟨{ t with row := DateCalc.findRow re t.startDate },
          List.mem_append_right _ (List.mem_singleton_self _), by simp [hreq, hjeq], ?_⟩
        rw [List.getElem_concat_length _ _ _ hjeq]
    · intro u hu hj
      rcases List.mem_append.mp hu with h | h
      · have hlt := inv.rowLt u h
        rw [List.getElem_append_left hlt]
        exact inv.endLe u h hlt
      · rcases List.mem_singleton.mp h with rfl
        simp only [hreq]
        rw [List.getElem_concat_length _ _ _ rfl]
    · rw [List.pairwise_append]
      refine ⟨inv.disj, List.pairwise_singleton _ _, ?_⟩
      intro a ha b hb
      rcases List.mem_singleton.mp hb with rfl
      intro heq
      have hlt : a.row < re.length := inv.rowLt a ha
      simp only [hreq] at heq
      omega
    · refine ⟨t.startDate, ?_⟩
      have hcontains : ∀ (j : ℕ), j < re.length →
          j ∈ (placed.filter (fun u => containsB u t.startDate)).map
            (fun u => u.row) := by
        intro j hj
        obtain ⟨u, hu, hrow, hend⟩ := inv.rowWitness j hj
        have hc : containsB u t.startDate = true := by
          unfold containsB
          simp only [Bool.and_eq_true, decide_eq_true_eq]
          refine ⟨hplaced u hu, ?_⟩
          rw [hend]
          exact hbefore j hj
        exact List.mem_map.mpr ⟨u, List.mem_filter.mpr ⟨hu, hc⟩, hrow⟩
      have hge : re.length ≤
          (placed.filter (fun u => containsB u t.startDate)).length := by
        have := le_length_of_all_mem
          ((placed.filter (fun u => containsB u t.startDate)).map (fun u => u.row))
          re.length hcontains
        simpa using this
      have hct : containsB { t with row := DateCalc.findRow re t.startDate }
          t.startDate = true := by
        unfold containsB
        simp only [Bool.and_eq_true, decide_eq_true_eq]
        exact ⟨le_refl _, hse⟩
      unfold overlapCount
      rw [List.filter_append, List.length_append, List.filter_singleton]
      simp only [hct, if_true, Bool.cond_true, List.length_singleton,
        List.length_append]
      omega

/-- The packing fold preserves the invariant over a start-sorted input. -/
theorem packGo_inv : ∀ (rest placed : List Task) (re : List ℤ),
    rest.Pairwise startLe →
    (∀ u ∈ rest, u.startDate ≤ u.endDate) →
    (∀ u ∈ placed, ∀ v ∈ rest, u.startDate ≤ v.startDate) →
    PackInv placed re →
    PackInv (placed ++ (DateCalc.packGo rest re).1)
      (DateCalc.packGo rest re).2 := by
  intro rest
  induction rest with
  | nil =>
    intro placed re _ _ _ inv
    simpa [DateCalc.packGo] using inv
  | cons t rest ih =>
    intro placed re hsorted hse hord inv
    have hstep := packInv_step placed re t inv
      (hse t (List.mem_cons_self t rest))
      (fun u hu => hord u hu t (List.mem_cons_self t rest))
    have hord2 : ∀ u ∈ placed ++ [{ t with row := DateCalc.findRow re t.startDate }],
        ∀ v ∈ rest, u.startDate ≤ v.startDate := by
      intro u hu v hv
      rcases List.mem_append.mp hu with h | h
      · exact hord u h v (List.mem_cons_of_mem t hv)
      · rcases List.mem_singleton.mp h with rfl
        exact List.rel_of_pairwise_cons hsorted hv
    have hrec := ih (placed ++ [{ t with row := DateCalc.findRow re t.startDate }])
      (DateCalc.setRowEnd re (DateCalc.findRow re t.startDate) t.endDate)
      hsorted.of_cons
      (fun u hu => hse u (List.mem_cons_of_mem t hu))
      hord2 hstep
    rw [List.append_assoc, List.singleton_append] at hrec
    simpa [DateCalc.packGo] using hrec

/-- Reassigning rows does not change which tasks contain a point. -/
theorem packGo_overlap (rest : List Task) : ∀ (re : List ℤ) (p : ℤ),
    overlapCount (DateCalc.packGo rest re).1 p = overlapCount rest p := by
  induction rest with
  | nil => intro re p; rfl
  | cons t rest ih =>
    intro re p
    unfold overlapCount at ih ⊢
    simp only [DateCalc.packGo]
    rw [List.filter_cons, List.filter_cons]
    have hc : containsB { t with row := DateCalc.findRow re t.startDate } p =
        containsB t p := rfl
    rw [hc]
    by_cases hb : containsB t p <;>
      simp [hb, ih (DateCalc.setRowEnd re (DateCalc.findRow re t.startDate) t.endDate) p]

/-- Claim C3: for intervals with start at or before end, the packing
variant of `calculateTaskRows` produces exactly as many rows as the
maximum number of mutually overlapping intervals at a single point: the
row count is attained as an overlap count at some point, never exceeded at
any point, and the assigned rows are exactly `0 .. rowCount - 1`. -/
theorem C3_packing_minimal (tasks : List Task)
    (h : ∀ t ∈ tasks, t.startDate ≤ t.endDate) :
    (∃ p : ℤ, DateCalc.packedRowCount tasks = overlapCount tasks p) ∧
    (∀ q : ℤ, overlapCount tasks q ≤ DateCalc.packedRowCount tasks) ∧
    (∀ t ∈ DateCalc.calculateTaskRows tasks,
      t.row < DateCalc.packedRowCount tasks) ∧
    (∀ r : ℕ, r < DateCalc.packedRowCount tasks →
      ∃ t ∈ DateCalc.calculateTaskRows tasks, t.row = r) := by
  have hperm := List.perm_insertionSort startLe tasks
  have hsorted : (List.insertionSort startLe tasks).Pairwise startLe :=
    List.sorted_insertionSort startLe tasks
  have hse : ∀ u ∈ List.insertionSort startLe tasks, u.startDate ≤ u.endDate :=
    fun u hu => h u (hperm.subset hu)
  have base : PackInv [] [] := by
    refine ⟨by simp, ?_, by simp, List.Pairwise.nil, ⟨0, by simp [overlapCount]⟩⟩
    intro j hj
    simp at hj
  have inv := packGo_inv (List.insertionSort startLe tasks) [] [] hsorted hse
    (by simp) base
  rw [List.nil_append] at inv
  have hoc : ∀ p : ℤ,
      overlapCount (DateCalc.packGo (List.insertionSort startLe tasks) []).1 p =
        overlapCount tasks p := by
    intro p
    rw [packGo_overlap]
    unfold overlapCount
    rw [← List.countP_eq_length_filter, ← List.countP_eq_length_filter]
    exact hperm.countP_eq _
  have hupper : ∀ q : ℤ, overlapCount tasks q ≤ DateCalc.packedRowCount tasks := by
    intro q
    rw [← hoc q]
    exact overlap_le_of_inv _ _ inv q
  refine ⟨?_, hupper, ?_, ?_⟩
  · obtain ⟨p, hp⟩ := inv.lower
    refine ⟨p, ?_⟩
    have h1 : overlapCount tasks p ≤ DateCalc.packedRowCount tasks := hupper p
    have h2 : DateCalc.packedRowCount tasks ≤ overlapCount tasks p := by
      rw [← hoc p]
      exact hp
    omega
  · intro t ht
    exact inv.rowLt t ht
  · intro r hr
    obtain ⟨t, ht, hrow, -⟩ := inv.rowWitness r hr
    exact ⟨t, ht, hrow⟩

/-- Intervals `[1,3], [2,4], [3,5]` of the spec example. -/
def c3Tasks : List Task :=
  [{ id := "x", title := "X", startDate := 1, endDate := 3,
     startDateProperty := "s", endDateProperty := "e",
     row := 0, group := none, parentId := none },
   { id := "y", title := "Y", startDate := 2, endDate := 4,
     startDateProperty := "s", endDateProperty := "e",
     row := 0, group := none, parentId := none },
   { id := "z", title := "Z", startDate := 3, endDate := 5,
     startDateProperty := "s", endDateProperty := "e",
     row := 0, group := none, parentId := none }]

/-- Witness for C3 at the spec example intervals. -/
theorem C3_witness :
    (∃ p : ℤ, DateCalc.packedRowCount c3Tasks = overlapCount c3Tasks p) ∧
    (∀ q : ℤ, overlapCount c3Tasks q ≤ DateCalc.packedRowCount c3Tasks) ∧
    (∀ t ∈ DateCalc.calculateTaskRows c3Tasks,
      t.row < DateCalc.packedRowCount c3Tasks) ∧
    (∀ r : ℕ, r < DateCalc.packedRowCount c3Tasks →
      ∃ t ∈ DateCalc.calculateTaskRows c3Tasks, t.row = r) :=
  C3_packing_minimal c3Tasks (by decide)

/-! Claim C9. -/

/-- Reassigning rows preserves start dates, hence sortedness by start. -/
theorem pairwise_startLe_assignRowsFrom (l : List Task) :
    ∀ i, l.Pairwise startLe →
      (GanttHelpers.assignRowsFrom i l).Pairwise startLe := by
  induction l with
  | nil => intro i _; exact List.Pairwise.nil
  | cons t rest ih =>
    intro i hp
    rcases List.pairwise_cons.mp hp with ⟨hhead, htail⟩
    refine List.pairwise_cons.mpr ⟨?_, ih (i + 1) htail⟩
    intro u hu
    have hmem : ∀ (rest2 : List Task) (j : ℕ) (u2 : Task),
        u2 ∈ GanttHelpers.assignRowsFrom j rest2 → ∃ v ∈ rest2, u2.startDate = v.startDate := by
      intro rest2
      induction rest2 with
      | nil => intro j u2 h2; simp [GanttHelpers.assignRowsFrom] at h2
      | cons w ws ihw =>
        intro j u2 h2
        rcases List.mem_cons.mp h2 with h3 | h3
        · exact ⟨w, List.mem_cons_self w ws, by rw [h3]⟩
        · obtain ⟨v, hv, he⟩ := ihw (j + 1) u2 h3
          exact ⟨v, List.mem_cons_of_mem w hv, he⟩
    obtain ⟨v, hv, he⟩ := hmem rest (i + 1) u hu
    show t.startDate ≤ u.startDate
    rw [he]
    exact hhead v hv

/-- The one-row-per-task layout is sorted by start date. -/
theorem calculateTaskRows_pairwise (m : List Task) :
    (GanttHelpers.calculateTaskRows m).Pairwise startLe :=
  pairwise_startLe_assignRowsFrom _ 0 (List.sorted_insertionSort startLe m)

/-- Row offsets preserve sortedness by start. -/
theorem pairwise_startLe_offset (l : List Task) (c : ℕ)
    (h : l.Pairwise startLe) :
    (l.map (fun t => { t with row := t.row + c })).Pairwise startLe :=
  h.map _ (fun _ _ hab => hab)

/-- Reassigning rows twice is the same as reassigning once, whatever row
offset was applied in between. -/
theorem assignRowsFrom_offset_assignRowsFrom (l : List Task) :
    ∀ (i c : ℕ),
      GanttHelpers.assignRowsFrom i
        ((GanttHelpers.assignRowsFrom i l).map (fun t => { t with row := t.row + c })) =
      GanttHelpers.assignRowsFrom i l := by
  induction l with
  | nil => intro i c; rfl
  | cons t rest ih =>
    intro i c
    simp only [GanttHelpers.assignRowsFrom, List.map_cons]
    rw [ih (i + 1) c]

/-- Re-running the one-row-per-task layout on its own (row-offset) output
returns the same layout. -/
theorem calculateTaskRows_idem (m : List Task) (c : ℕ) :
    GanttHelpers.calculateTaskRows
      ((GanttHelpers.calculateTaskRows m).map (fun t => { t with row := t.row + c })) =
    GanttHelpers.calculateTaskRows m := by
  unfold GanttHelpers.calculateTaskRows
  have hsorted : ((GanttHelpers.assignRowsFrom 0
      (List.insertionSort startLe m)).map
        (fun t => { t with row := t.row + c })).Pairwise startLe :=
    pairwise_startLe_offset _ c
      (pairwise_startLe_assignRowsFrom _ 0 (List.sorted_insertionSort startLe m))
  rw [List.Sorted.insertionSort_eq hsorted]
  exact assignRowsFrom_offset_assignRowsFrom (List.insertionSort startLe m) 0 c

/-- Inserting under a fresh key appends a new singleton bucket. -/
theorem upsert_not_mem (m : List (String × List Task)) (k : String) (t : Task)
    (h : k ∉ m.map Prod.fst) :
    GanttHelpers.upsert m k t = m ++ [(k, [t])] := by
  induction m with
  | nil => rfl
  | cons pr rest ih =>
    simp only [List.map_cons, List.mem_cons] at h
    push_neg at h
    unfold GanttHelpers.upsert
    rw [if_neg (fun he => h.1 he.symm)]
    rw [ih h.2]
    rfl

/-- Inserting under the key of the final bucket extends that bucket. -/
theorem upsert_last (m : List (String × List Task)) (pre : List Task)
    (k : String) (t : Task) (h : k ∉ m.map Prod.fst) :
    GanttHelpers.upsert (m ++ [(k, pre)]) k t = m ++ [(k, pre ++ [t])] := by
  induction m with
  | nil =>
    unfold GanttHelpers.upsert
    simp
  | cons pr rest ih =>
    simp only [List.map_cons, List.mem_cons] at h
    push_neg at h
    simp only [List.cons_append]
    unfold GanttHelpers.upsert
    rw [if_neg (fun he => h.1 he.symm)]
    rw [ih h.2]

/-- Folding a run of tasks that all belong to the final bucket extends that
bucket with the whole run. -/
theorem foldl_upsert_into_last (k : String) :
    ∀ (rest : List Task) (m : List (String × List Task)) (pre : List Task),
      (∀ t ∈ rest, GanttHelpers.groupName t = k) →
      k ∉ m.map Prod.fst →
      List.foldl (fun acc t => GanttHelpers.upsert acc (GanttHelpers.groupName t) t)
        (m ++ [(k, pre)]) rest = m ++ [(k, pre ++ rest)] := by
  intro rest
  induction rest with
  | nil => intro m pre _ _; simp
  | cons t ts ih =>
    intro m pre hall hk
    simp only [List.foldl_cons]
    rw [hall t (List.mem_cons_self t ts)]
    rw [upsert_last m pre k t hk]
    rw [ih m (pre ++ [t]) (fun u hu => hall u (List.mem_cons_of_mem t hu)) hk]
    simp

/-- Folding a non-empty run of tasks that all share a fresh bucket name
appends exactly one bucket holding the whole run. -/
theorem foldl_upsert_block (k : String) (block : List Task)
    (m : List (String × List Task))
    (hall : ∀ t ∈ block, GanttHelpers.groupName t = k)
    (hk : k ∉ m.map Prod.fst) (hne : block ≠ []) :
    List.foldl (fun acc t => GanttHelpers.upsert acc (GanttHelpers.groupName t) t)
      m block = m ++ [(k, block)] := by
  match block with
  | [] => exact absurd rfl hne
  | t :: ts =>
    simp only [List.foldl_cons]
    rw [hall t (List.mem_cons_self t ts)]
    rw [upsert_not_mem m k t hk]
    rw [foldl_upsert_into_last k ts m [t]
      (fun u hu => hall u (List.mem_cons_of_mem t hu)) hk]
    rfl

/-- Bucket invariants of `groupTasksByProperty`: distinct keys, every
member labelled with its bucket name, no empty buckets. -/
theorem groupTasksByProperty_ok (tasks : List Task) (p : String) :
    ((GanttHelpers.groupTasksByProperty tasks p).map Prod.fst).Nodup ∧
    (∀ pr ∈ GanttHelpers.groupTasksByProperty tasks p, ∀ t ∈ pr.2,
      GanttHelpers.groupName t = pr.1) ∧
    (∀ pr ∈ GanttHelpers.groupTasksByProperty tasks p, pr.2 ≠ []) := by
  have main : ∀ (ts : List Task) (m : List (String × List Task)),
      (m.map Prod.fst).Nodup →
      (∀ pr ∈ m, ∀ t ∈ pr.2, GanttHelpers.groupName t = pr.1) →
      (∀ pr ∈ m, pr.2 ≠ []) →
      ((List.foldl (fun acc t => GanttHelpers.upsert acc (GanttHelpers.groupName t) t)
          m ts).map Prod.fst).Nodup ∧
      (∀ pr ∈ List.foldl (fun acc t => GanttHelpers.upsert acc (GanttHelpers.groupName t) t)
          m ts, ∀ t ∈ pr.2, GanttHelpers.groupName t = pr.1) ∧
      (∀ pr ∈ List.foldl (fun acc t => GanttHelpers.upsert acc (GanttHelpers.groupName t) t)
          m ts, pr.2 ≠ []) := by
    intro ts
    induction ts with
    | nil => intro m h1 h2 h3; exact ⟨h1, h2, h3⟩
    | cons t rest ih =>
      intro m h1 h2 h3
      simp only [List.foldl_cons]
      have hstep : ∀ (m2 : List (String × List Task)),
          (m2.map Prod.fst).Nodup →
          (∀ pr ∈ m2, ∀ u ∈ pr.2, GanttHelpers.groupName u = pr.1) →
          (∀ pr ∈ m2, pr.2 ≠ []) →
          (((GanttHelpers.upsert m2 (GanttHelpers.groupName t) t).map Prod.fst).Nodup ∧
           (∀ pr ∈ GanttHelpers.upsert m2 (GanttHelpers.groupName t) t, ∀ u ∈ pr.2,
             GanttHelpers.groupName u = pr.1) ∧
           (∀ pr ∈ GanttHelpers.upsert m2 (GanttHelpers.groupName t) t, pr.2 ≠ [])) ∧
          (GanttHelpers.upsert m2 (GanttHelpers.groupName t) t).map Prod.fst =
            if GanttHelpers.groupName t ∈ m2.map Prod.fst then m2.map Prod.fst
            else m2.map Prod.fst ++ [GanttHelpers.groupName t] := by
        intro m2
        induction m2 with
        | nil =>
          intro _ _ _
          refine ⟨⟨by simp [GanttHelpers.upsert], ?_, ?_⟩, by simp [GanttHelpers.upsert]⟩
          · intro pr hpr u hu
            simp only [GanttHelpers.upsert, List.mem_singleton] at hpr
            subst hpr
            simp only [List.mem_singleton] at hu
            subst hu
            rfl
          · intro pr hpr
            simp only [GanttHelpers.upsert, List.mem_singleton] at hpr
            subst hpr
            simp
        | cons pr2 rest2 ih2 =>
          obtain ⟨k2, ts2⟩ := pr2
          intro hn1 hn2 hn3
          by_cases heq : k2 = GanttHelpers.groupName t
          · have hup : GanttHelpers.upsert ((k2, ts2) :: rest2) (GanttHelpers.groupName t) t =
                (k2, ts2 ++ [t]) :: rest2 := by
              unfold GanttHelpers.upsert
              rw [if_pos heq]
            rw [hup]
            refine ⟨⟨?_, ?_, ?_⟩, ?_⟩
            · simpa using hn1
            · intro pr hpr u hu
              rcases List.mem_cons.mp hpr with h4 | h4
              · subst h4
                simp only at hu
                rcases List.mem_append.mp hu with h5 | h5
                · exact hn2 (k2, ts2) (List.mem_cons_self _ _) u h5
                · rcases List.mem_singleton.mp h5 with rfl
                  exact heq.symm
              · exact hn2 pr (List.mem_cons_of_mem _ h4) u hu
            · intro pr hpr
              rcases List.mem_cons.mp hpr with h4 | h4
              · subst h4; simp
              · exact hn3 pr (List.mem_cons_of_mem _ h4)
            · have hmem : GanttHelpers.groupName t ∈ ((k2, ts2) :: rest2).map Prod.fst := by
                simp [← heq]
              rw [if_pos hmem]
              simp
          · rw [List.map_cons] at hn1
            have hk2 : k2 ∉ rest2.map Prod.fst := (List.nodup_cons.mp hn1).1
            have hrestnd : (rest2.map Prod.fst).Nodup := (List.nodup_cons.mp hn1).2
            have hup : GanttHelpers.upsert ((k2, ts2) :: rest2) (GanttHelpers.groupName t) t =
                (k2, ts2) :: GanttHelpers.upsert rest2 (GanttHelpers.groupName t) t := by
              conv_lhs => rw [GanttHelpers.upsert]
              rw [if_neg heq]
            rw [hup]
            have hrest := ih2 hrestnd
              (fun pr hpr => hn2 pr (List.mem_cons_of_mem _ hpr))
              (fun pr hpr => hn3 pr (List.mem_cons_of_mem _ hpr))
            refine ⟨⟨?_, ?_, ?_⟩, ?_⟩
            · simp only [List.map_cons, List.nodup_cons]
              refine ⟨?_, hrest.1.1⟩
              rw [hrest.2]
              by_cases hmem : GanttHelpers.groupName t ∈ rest2.map Prod.fst
              · rw [if_pos hmem]
                exact hk2
              · rw [if_neg hmem]
                simp only [List.mem_append, List.mem_singleton]
                push_neg
                exact ⟨hk2, fun he => heq he⟩
            · intro pr hpr u hu
              rcases List.mem_cons.mp hpr with h4 | h4
              · subst h4
                exact hn2 (k2, ts2) (List.mem_cons_self _ _) u hu
              · exact hrest.1.2.1 pr h4 u hu
            · intro pr hpr
              rcases List.mem_cons.mp hpr with h4 | h4
              · subst h4
                exact hn3 (k2, ts2) (List.mem_cons_self _ _)
              · exact hrest.1.2.2 pr h4
            · simp only [List.map_cons, hrest.2]
              by_cases hmem : GanttHelpers.groupName t ∈ rest2.map Prod.fst
              · rw [if_pos hmem, if_pos (List.mem_cons_of_mem _ hmem)]
              · have hng : GanttHelpers.groupName t ∉ k2 :: rest2.map Prod.fst := by
                  intro hm
                  rcases List.mem_cons.mp hm with h5 | h5
                  · exact heq h5.symm
                  · exact hmem h5
                rw [if_neg hmem, if_neg hng]
                simp
      have hs := hstep m h1 h2 h3
      exact ih _ hs.1.1 hs.1.2.1 hs.1.2.2
  exact main tasks [] (by simp) (by simp) (by simp)

/-- Row reassignment keeps the group label of every task. -/
theorem group_mem_assignRowsFrom : ∀ (l : List Task) (i : ℕ) (t : Task),
    t ∈ GanttHelpers.assignRowsFrom i l → ∃ u ∈ l, t.group = u.group := by
  intro l
  induction l with
  | nil => intro i t h; simp [GanttHelpers.assignRowsFrom] at h
  | cons w ws ih =>
    intro i t h
    rcases List.mem_cons.mp h with h2 | h2
    · exact ⟨w, List.mem_cons_self w ws, by rw [h2]⟩
    · obtain ⟨u, hu, he⟩ := ih (i + 1) t h2
      exact ⟨u, List.mem_cons_of_mem w hu, he⟩

/-- `groupName` only reads the group field. -/
theorem groupName_congr (t u : Task) (h : t.group = u.group) :
    GanttHelpers.groupName t = GanttHelpers.groupName u := by
  unfold GanttHelpers.groupName
  rw [h]

/-- All tasks of a consistently-labelled bucket keep their label through
the one-row-per-task layout. -/
theorem groupName_calculateTaskRows (b : List Task) (n : String)
    (hall : ∀ t ∈ b, GanttHelpers.groupName t = n) :
    ∀ t ∈ GanttHelpers.calculateTaskRows b, GanttHelpers.groupName t = n := by
  intro t ht
  unfold GanttHelpers.calculateTaskRows at ht
  obtain ⟨u, hu, he⟩ := group_mem_assignRowsFrom _ 0 t ht
  have hu2 : u ∈ b := (List.perm_insertionSort startLe b).subset hu
  rw [groupName_congr t u he]
  exact hall u hu2

/-- Row reassignment preserves length. -/
theorem length_assignRowsFrom (l : List Task) :
    ∀ i, (GanttHelpers.assignRowsFrom i l).length = l.length := by
  induction l with
  | nil => intro i; rfl
  | cons t rest ih =>
    intro i
    simp only [GanttHelpers.assignRowsFrom, List.length_cons, ih (i + 1)]

/-- The one-row-per-task layout preserves length. -/
theorem length_calculateTaskRows (m : List Task) :
    (GanttHelpers.calculateTaskRows m).length = m.length := by
  unfold GanttHelpers.calculateTaskRows
  rw [length_assignRowsFrom]
  exact (List.perm_insertionSort startLe m).length_eq

/-- One-step equation of the group walk with no collapsed groups. -/
theorem groupedRowsGo_cons_eq (grouped : List (String × List Task))
    (name : String) (rest : List String) (cur : ℕ) :
    GanttHelpers.groupedRowsGo grouped [] (name :: rest) cur =
      (((GanttHelpers.calculateTaskRows ((List.lookup name grouped).getD [])).map
          (fun t => { t with row := t.row + (cur + 1) })) ++
        (GanttHelpers.groupedRowsGo grouped [] rest
          (cur + 1 + (GanttHelpers.maxLocalRow (GanttHelpers.calculateTaskRows
            ((List.lookup name grouped).getD [])) + 1).toNat)).1,
       { name := name,
         tasks := (GanttHelpers.calculateTaskRows
            ((List.lookup name grouped).getD [])).map
            (fun t => { t with row := t.row + (cur + 1) }),
         startRow := cur,
         rowCount := (GanttHelpers.maxLocalRow (GanttHelpers.calculateTaskRows
            ((List.lookup name grouped).getD [])) + 2).toNat,
         isCollapsed := false } ::
         (GanttHelpers.groupedRowsGo grouped [] rest
          (cur + 1 + (GanttHelpers.maxLocalRow (GanttHelpers.calculateTaskRows
            ((List.lookup name grouped).getD [])) + 1).toNat)).2) := by
  conv_lhs => rw [GanttHelpers.groupedRowsGo]
  rw [if_neg (by simp)]

/-- With no collapsed groups, the produced group names are exactly the
processed names and every group is expanded. -/
theorem go_groups_names (grouped : List (String × List Task)) :
    ∀ (names : List String) (cur : ℕ),
      ((GanttHelpers.groupedRowsGo grouped [] names cur).2.map (fun g => g.name) =
        names) ∧
      (∀ g ∈ (GanttHelpers.groupedRowsGo grouped [] names cur).2,
        g.isCollapsed = false) := by
  intro names
  induction names with
  | nil =>
    intro cur
    constructor
    · rfl
    · intro g hg
      simp [GanttHelpers.groupedRowsGo] at hg
  | cons name rest ih =>
    intro cur
    rw [groupedRowsGo_cons_eq]
    constructor
    · simp only [List.map_cons]
      rw [(ih _).1]
    · intro g hg
      rcases List.mem_cons.mp hg with h | h
      · subst h; rfl
      · exact (ih _).2 g h

/-- Membership in the key list yields a lookup hit that is itself an entry
of the association list. -/
theorem lookup_mem_keys (m : List (String × List Task)) (n : String)
    (h : n ∈ m.map Prod.fst) :
    ∃ b, List.lookup n m = some b ∧ (n, b) ∈ m := by
  induction m with
  | nil => simp at h
  | cons pr rest ih =>
    obtain ⟨k, v⟩ := pr
    by_cases he : n = k
    · subst he
      exact ⟨v, by simp [List.lookup], List.mem_cons_self _ _⟩
    · have h2 : n ∈ rest.map Prod.fst := by
        simp only [List.map_cons, List.mem_cons] at h
        rcases h with h3 | h3
        · exact absurd h3 he
        · exact h3
      obtain ⟨b, hb1, hb2⟩ := ih h2
      refine ⟨b, ?_, List.mem_cons_of_mem _ hb2⟩
      simp only [List.lookup]
      have hbeq : (n == k) = false := by simpa using he
      rw [hbeq]
      exact hb1

/-- Looking a group name up in the name/tasks pair list recovers the tasks
of the unique group with that name. -/
theorem lookup_groups_map (gs : List GanttHelpers.TaskGroup)
    (hnd : (gs.map (fun g => g.name)).Nodup) (g : GanttHelpers.TaskGroup)
    (hg : g ∈ gs) :
    List.lookup g.name (gs.map (fun h => (h.name, h.tasks))) = some g.tasks := by
  induction gs with
  | nil => simp at hg
  | cons g0 rest ih =>
    rcases List.mem_cons.mp hg with h | h
    · subst h
      simp [List.lookup]
    · have hne : g.name ≠ g0.name := by
        intro he
        have h1 : g0.name ∉ rest.map (fun g => g.name) :=
          (List.nodup_cons.mp (by simpa using hnd)).1
        exact h1 (he ▸ List.mem_map.mpr ⟨g, h, rfl⟩)
      simp only [List.map_cons, List.lookup]
      have hbeq : (g.name == g0.name) = false := by simpa using hne
      rw [hbeq]
      exact ih (List.nodup_cons.mp (by simpa using hnd)).2 h

/-- Regrouping the walk output by group label recovers one bucket per
group, in output order, holding exactly that group's laid-out tasks. -/
theorem go_regroup (grouped : List (String × List Task)) :
    ∀ (names : List String) (cur : ℕ) (m : List (String × List Task)),
      names.Nodup →
      (∀ n ∈ names, ∃ b, List.lookup n grouped = some b ∧ b ≠ [] ∧
        ∀ t ∈ b, GanttHelpers.groupName t = n) →
      (∀ n ∈ names, n ∉ m.map Prod.fst) →
      List.foldl (fun acc t => GanttHelpers.upsert acc (GanttHelpers.groupName t) t)
        m (GanttHelpers.groupedRowsGo grouped [] names cur).1 =
      m ++ (GanttHelpers.groupedRowsGo grouped [] names cur).2.map
        (fun g => (g.name, g.tasks)) := by
  intro names
  induction names with
  | nil =>
    intro cur m _ _ _
    simp [GanttHelpers.groupedRowsGo]
  | cons name rest ih =>
    intro cur m hnd hbuckets hfresh
    obtain ⟨b, hb1, hb2, hb3⟩ := hbuckets name (List.mem_cons_self _ _)
    rw [groupedRowsGo_cons_eq]
    set globals := (GanttHelpers.calculateTaskRows
        ((List.lookup name grouped).getD [])).map
        (fun t => { t with row := t.row + (cur + 1) }) with hgdef
    set cur2 := cur + 1 + (GanttHelpers.maxLocalRow (GanttHelpers.calculateTaskRows
        ((List.lookup name grouped).getD [])) + 1).toNat with hcur2
    simp only
    rw [List.foldl_append]
    have hglabel : ∀ t ∈ globals, GanttHelpers.groupName t = name := by
      intro t ht
      rw [hgdef] at ht
      obtain ⟨u, hu, he⟩ := List.mem_map.mp ht
      have h1 : GanttHelpers.groupName u = name := by
        refine groupName_calculateTaskRows _ name ?_ u hu
        rw [hb1]
        exact hb3
      rw [← h1, ← he]
      exact groupName_congr _ u rfl
    have hgne : globals ≠ [] := by
      intro he
      rw [hgdef] at he
      have h2 := congrArg List.length he
      rw [List.length_map, length_calculateTaskRows, hb1] at h2
      simp only [Option.getD_some, List.length_nil] at h2
      exact hb2 (List.length_eq_zero.mp h2)
    rw [foldl_upsert_block name globals m hglabel
      (hfresh name (List.mem_cons_self _ _)) hgne]
    have hfresh2 : ∀ n ∈ rest, n ∉ (m ++ [(name, globals)]).map Prod.fst := by
      intro n hn
      rw [List.map_append]
      simp only [List.mem_append, List.map_cons, List.map_nil,
        List.mem_singleton, List.not_mem_nil]
      push_neg
      refine ⟨hfresh n (List.mem_cons_of_mem _ hn), ?_⟩
      intro he
      exact (List.nodup_cons.mp hnd).1 (he ▸ hn)
    rw [ih cur2 (m ++ [(name, globals)]) (List.nodup_cons.mp hnd).2
      (fun n hn => hbuckets n (List.mem_cons_of_mem _ hn)) hfresh2]
    simp

/-- Insertion under comparators that agree on the elements present. -/
theorem orderedInsert_congr {r s : String → String → Prop}
    [DecidableRel r] [DecidableRel s] (a : String) :
    ∀ (l : List String), (∀ b ∈ l, (r a b ↔ s a b)) →
      List.orderedInsert r a l = List.orderedInsert s a l := by
  intro l
  induction l with
  | nil => intro _; rfl
  | cons b bl ih =>
    intro hag
    simp only [List.orderedInsert]
    by_cases h : r a b
    · rw [if_pos h, if_pos ((hag b (List.mem_cons_self _ _)).mp h)]
    · rw [if_neg h, if_neg (fun hs => h ((hag b (List.mem_cons_self _ _)).mpr hs))]
      rw [ih (fun c hc => hag c (List.mem_cons_of_mem _ hc))]

/-- Sorting a duplicate-free list with comparators that agree on distinct
elements gives the same result. -/
theorem insertionSort_congr {r s : String → String → Prop}
    [DecidableRel r] [DecidableRel s] :
    ∀ (l : List String), l.Nodup →
      (∀ a ∈ l, ∀ b ∈ l, a ≠ b → (r a b ↔ s a b)) →
      List.insertionSort r l = List.insertionSort s l := by
  intro l
  induction l with
  | nil => intro _ _; rfl
  | cons a bl ih =>
    intro hnd hag
    simp only [List.insertionSort]
    rw [ih (List.nodup_cons.mp hnd).2
      (fun x hx y hy => hag x (List.mem_cons_of_mem _ hx) y (List.mem_cons_of_mem _ hy))]
    refine orderedInsert_congr a _ ?_
    intro b hb
    have hbmem : b ∈ bl := (List.perm_insertionSort s bl).subset hb
    refine hag a (List.mem_cons_self _ _) b (List.mem_cons_of_mem _ hbmem) ?_
    intro he
    exact (List.nodup_cons.mp hnd).1 (he ▸ hbmem)

/-- Characterisation of the group-name comparator relation. -/
theorem groupNameLe_iff (a b : String) :
    GanttHelpers.groupNameLe a b ↔
      (a ≠ "No Group" ∧ (b = "No Group" ∨ a.data ≤ b.data)) := by
  unfold GanttHelpers.groupNameLe GanttHelpers.groupNameCmp GanttHelpers.localeCompare
  split_ifs with h1 h2 h3 h4 <;> simp_all [le_iff_lt_or_eq]

/-- Totalised version of the group-name comparator (reflexive on the
"No Group" key, where the source comparator is not). -/
def groupNameLeT (a b : String) : Prop := a = b ∨ GanttHelpers.groupNameLe a b

instance : DecidableRel groupNameLeT :=
  fun a b => inferInstanceAs (Decidable (_ ∨ _))

instance : IsTrans String groupNameLeT :=
  ⟨by
    intro a b c hab hbc
    unfold groupNameLeT at hab hbc ⊢
    simp only [groupNameLe_iff] at hab hbc ⊢
    rcases hab with rfl | hab
    · exact hbc
    · rcases hbc with rfl | hbc
      · right; exact hab
      · right
        refine ⟨hab.1, ?_⟩
        rcases hab.2 with hb | hab2
        · exact absurd hb hbc.1
        · rcases hbc.2 with hc | hbc2
          · left; exact hc
          · right; exact le_trans hab2 hbc2⟩

instance : IsTotal String groupNameLeT :=
  ⟨by
    intro a b
    unfold groupNameLeT
    by_cases hab : a = b
    · left; left; exact hab
    · simp only [groupNameLe_iff]
      by_cases ha : a = "No Group"
      · right; right
        exact ⟨fun hb => hab (ha.trans hb.symm), Or.inl ha⟩
      · by_cases hb : b = "No Group"
        · left; right; exact ⟨ha, Or.inl hb⟩
        · rcases le_total a.data b.data with h | h
          · left; right; exact ⟨ha, Or.inr h⟩
          · right; right; exact ⟨hb, Or.inr h⟩⟩

/-- Sorting a duplicate-free list of group names twice with the source
comparator is the same as sorting once. -/
theorem sortNames_idem (l : List String) (hnd : l.Nodup) :
    List.insertionSort GanttHelpers.groupNameLe
      (List.insertionSort GanttHelpers.groupNameLe l) =
    List.insertionSort GanttHelpers.groupNameLe l := by
  have hagree : ∀ (l2 : List String), ∀ a ∈ l2, ∀ b ∈ l2, a ≠ b →
      (GanttHelpers.groupNameLe a b ↔ groupNameLeT a b) := by
    intro l2 a _ b _ hne
    unfold groupNameLeT
    constructor
    · intro h; right; exact h
    · rintro (rfl | h)
      · exact absurd rfl hne
      · exact h
  have h1 : List.insertionSort GanttHelpers.groupNameLe l =
      List.insertionSort groupNameLeT l :=
    insertionSort_congr l hnd (hagree l)
  have hnd2 : (List.insertionSort GanttHelpers.groupNameLe l).Nodup :=
    (List.perm_insertionSort _ l).nodup_iff.mpr hnd
  rw [insertionSort_congr _ hnd2 (hagree _)]
  rw [h1]
  exact List.Sorted.insertionSort_eq (List.sorted_insertionSort groupNameLeT l)

/-- The group walk only reads members through the one-row-per-task layout,
so association lists that agree there produce identical output. -/
theorem go_eq_of_members (grouped grouped2 : List (String × List Task)) :
    ∀ (names : List String) (cur : ℕ),
      (∀ n ∈ names,
        GanttHelpers.calculateTaskRows ((List.lookup n grouped2).getD []) =
        GanttHelpers.calculateTaskRows ((List.lookup n grouped).getD [])) →
      GanttHelpers.groupedRowsGo grouped2 [] names cur =
        GanttHelpers.groupedRowsGo grouped [] names cur := by
  intro names
  induction names with
  | nil => intro cur _; rfl
  | cons name rest ih =>
    intro cur hmem
    rw [groupedRowsGo_cons_eq, groupedRowsGo_cons_eq]
    rw [hmem name (List.mem_cons_self _ _)]
    rw [ih _ (fun n hn => hmem n (List.mem_cons_of_mem _ hn))]

/-- One grouping-and-row-layout pass: bucket by group value, then lay out
groups and rows. -/
def groupPass (tasks : List Task) (p : String) (collapsed : List String) :
    List Task × List GanttHelpers.TaskGroup :=
  GanttHelpers.calculateGroupedRows (GanttHelpers.groupTasksByProperty tasks p)
    collapsed

/-- First item of the C9 counterexample, in group "a". -/
def c9A : Task :=
  { id := "a9", title := "A9", startDate := 0, endDate := 1,
    startDateProperty := "s", endDateProperty := "e",
    row := 0, group := some "a", parentId := none }

/-- Second item of the C9 counterexample, in group "b". -/
def c9B : Task :=
  { id := "b9", title := "B9", startDate := 0, endDate := 1,
    startDateProperty := "s", endDateProperty := "e",
    row := 1, group := some "b", parentId := none }

/-- Counterexample to claim C9 as stated: with group "a" collapsed, the
pass drops the collapsed group's members from its output task list, so
running the pass again on its own output loses group "a" entirely and
shifts the rows of group "b" — the second run does not reproduce the row
and group assignments of the first. -/
theorem C9_counterexample :
    groupPass ((groupPass [c9A, c9B] "g" ["a"]).1) "g" ["a"] ≠
      groupPass [c9A, c9B] "g" ["a"] := by
  decide

/-- Claim C9 as amended: with an empty collapsed-group set, the
grouping-and-row-layout pass is idempotent on its own output — rerunning
it yields identical row and group assignments for every task and identical
startRow/rowCount for every group. -/
theorem C9_idempotent_no_collapse (tasks : List Task) (p : String) :
    groupPass ((groupPass tasks p []).1) p [] = groupPass tasks p [] := by
  have hok := groupTasksByProperty_ok tasks p
  set grouped1 := GanttHelpers.groupTasksByProperty tasks p with hg1
  set names1 := List.insertionSort GanttHelpers.groupNameLe
    (grouped1.map Prod.fst) with hn1
  have hnd1 : names1.Nodup :=
    (List.perm_insertionSort _ _).nodup_iff.mpr hok.1
  have hbuckets : ∀ n ∈ names1, ∃ b, List.lookup n grouped1 = some b ∧ b ≠ [] ∧
      ∀ t ∈ b, GanttHelpers.groupName t = n := by
    intro n hn
    have hkeys : n ∈ grouped1.map Prod.fst :=
      (List.perm_insertionSort _ _).subset hn
    obtain ⟨b, hb1, hb2⟩ := lookup_mem_keys grouped1 n hkeys
    exact ⟨b, hb1, hok.2.2 (n, b) hb2, fun t ht => hok.2.1 (n, b) hb2 t ht⟩
  have hpass1 : groupPass tasks p [] =
      GanttHelpers.groupedRowsGo grouped1 [] names1 0 := rfl
  set gs1 := (GanttHelpers.groupedRowsGo grouped1 [] names1 0).2 with hgs
  set ts1 := (GanttHelpers.groupedRowsGo grouped1 [] names1 0).1 with hts
  have hregroup : GanttHelpers.groupTasksByProperty ts1 p =
      gs1.map (fun g => (g.name, g.tasks)) := by
    have h := go_regroup grouped1 names1 0 [] hnd1 hbuckets (by simp)
    simpa [GanttHelpers.groupTasksByProperty, hts, hgs] using h
  have hnames : gs1.map (fun g => g.name) = names1 :=
    (go_groups_names grouped1 names1 0).1
  have hkeys2 : (gs1.map (fun g => (g.name, g.tasks))).map Prod.fst = names1 := by
    rw [List.map_map]
    exact hnames
  have hnames2 : List.insertionSort GanttHelpers.groupNameLe
      ((gs1.map (fun g => (g.name, g.tasks))).map Prod.fst) = names1 := by
    rw [hkeys2, hn1]
    exact sortNames_idem _ hok.1
  have hmembers : ∀ n ∈ names1,
      GanttHelpers.calculateTaskRows
        ((List.lookup n (gs1.map (fun g => (g.name, g.tasks)))).getD []) =
      GanttHelpers.calculateTaskRows ((List.lookup n grouped1).getD []) := by
    intro n hn
    have hn2 : n ∈ gs1.map (fun g => g.name) := by
      rw [hnames]; exact hn
    obtain ⟨g, hg, hgname⟩ := List.mem_map.mp hn2
    have hnd_names : (gs1.map (fun g => g.name)).Nodup := by
      rw [hnames]; exact hnd1
    have hlk : List.lookup g.name (gs1.map (fun h => (h.name, h.tasks))) =
        some g.tasks := lookup_groups_map gs1 hnd_names g hg
    have hnc : g.isCollapsed = false := (go_groups_names grouped1 names1 0).2 g hg
    have hspec := (groupedRowsGo_spec grouped1 [] names1 0).1 g hg hnc
    rw [← hgname, hlk]
    simp only [Option.getD_some]
    rw [hspec.1]
    exact calculateTaskRows_idem _ _
  have hts1 : (groupPass tasks p []).1 = ts1 := by rw [hpass1]
  rw [hts1, hpass1]
  show GanttHelpers.calculateGroupedRows
      (GanttHelpers.groupTasksByProperty ts1 p) [] =
    GanttHelpers.groupedRowsGo grouped1 [] names1 0
  unfold GanttHelpers.calculateGroupedRows
  rw [hregroup, hnames2]
  exact go_eq_of_members grouped1 _ names1 0 hmembers

end BasesViews
